import Mathlib

/-!
Verification of the organization-matching and email-format-inference pipeline
of the joe_dashboard repository.

The development shallowly embeds the two core modules:
  * scripts/03_email_extraction/extract_email_formats.py
    (text-pattern extractor, source prioritizer, email generator), and
  * scripts/04_admin_processing/process_admin_emails.py
    (key normalizer, three-tier facility matcher, per-record processing).

Strings are modelled as `List Char` (with `String` wrappers mirroring the
Python function signatures); possibly-missing values (`None` / `NaN`) are
modelled as `Option`; Python floats are modelled as `ℚ`.  The TF-IDF cosine
similarity computed by the external sklearn library is abstracted as a
similarity-score parameter `sim`; everything the repository's own code does
with those scores (arg-max, threshold comparison) is embedded faithfully.
The fixed regular expressions of the extractor are embedded as explicit
backtracking scanners over `List Char`, following Python `re.search` /
`re.finditer` semantics (leftmost match, greedy quantifiers, IGNORECASE
where the source passes that flag, ASCII-level character classes).
-/

namespace JoeDashboard

/-! ## Python string primitives over `List Char` -/

/-- Python `str.upper` at the ASCII level (one character). -/
def pyToUpper (c : Char) : Char :=
  if 97 ≤ c.toNat ∧ c.toNat ≤ 122 then Char.ofNat (c.toNat - 32) else c

/-- Python `str.lower` at the ASCII level (one character). -/
def pyToLower (c : Char) : Char :=
  if 65 ≤ c.toNat ∧ c.toNat ≤ 90 then Char.ofNat (c.toNat + 32) else c

/-- Whitespace as used by Python `str.strip` / `str.split` (ASCII subset). -/
def pyWs (c : Char) : Bool :=
  c = ' ' ∨ c = '\t' ∨ c = '\n' ∨ c = '\r'

/-- Python `str.strip`: drop leading and trailing whitespace. -/
def pyStrip (s : List Char) : List Char :=
  (((s.dropWhile pyWs).reverse.dropWhile pyWs)).reverse

/-- Python `str.split()` (no separator argument): split on whitespace runs,
dropping empty fragments.  `cur` accumulates the current fragment reversed. -/
def pySplitAcc (cur : List Char) : List Char → List (List Char)
  | [] => if cur.isEmpty then [] else [cur.reverse]
  | c :: cs =>
    if pyWs c then
      if cur.isEmpty then pySplitAcc [] cs else cur.reverse :: pySplitAcc [] cs
    else pySplitAcc (c :: cur) cs

def pySplit (s : List Char) : List (List Char) := pySplitAcc [] s

/-- `' '.join parts` for the whitespace-collapse idiom `' '.join(s.split())`. -/
def joinSpace : List (List Char) → List Char
  | [] => []
  | [p] => p
  | p :: q :: r => p ++ ' ' :: joinSpace (q :: r)

/-- `' '.join(s.split())`: collapse internal whitespace runs to single spaces
and strip the ends. -/
def collapseWs (s : List Char) : List Char := joinSpace (pySplit s)

/-- Does `pat` occur at the head of `s` (case-sensitive)? -/
def startsWithSeq : List Char → List Char → Bool
  | [], _ => true
  | _ :: _, [] => false
  | p :: ps, c :: cs => if p = c then startsWithSeq ps cs else false

/-- Python `needle in haystack` (substring containment, case-sensitive). -/
def containsSeq (pat : List Char) : List Char → Bool
  | [] => startsWithSeq pat []
  | c :: cs => startsWithSeq pat (c :: cs) || containsSeq pat cs

/-- Python `str.replace(pat, rep)` (all non-overlapping occurrences, scanning
left to right), fuelled version; `pat` is nonempty in all uses, and the fuel
is at least the length of the string, so the fuel never runs out. -/
def pyReplaceAux (pat rep : List Char) : Nat → List Char → List Char
  | 0, s => s
  | _ + 1, [] => []
  | f + 1, c :: cs =>
    if startsWithSeq pat (c :: cs) then rep ++ pyReplaceAux pat rep f ((c :: cs).drop pat.length)
    else c :: pyReplaceAux pat rep f cs

def pyReplace (pat rep s : List Char) : List Char := pyReplaceAux pat rep s.length s

/-- Python `s.split(sep)` for a single-character separator (keeps empties). -/
def splitChAcc (d : Char) (cur : List Char) : List Char → List (List Char)
  | [] => [cur.reverse]
  | c :: cs => if c = d then cur.reverse :: splitChAcc d [] cs else splitChAcc d (c :: cur) cs

def splitCh (d : Char) (s : List Char) : List (List Char) := splitChAcc d [] s

/-- Python `s.split(', ')`: split on every non-overlapping occurrence of the
two-character separator `", "`, keeping empty fragments; `cur` accumulates
the current fragment reversed. -/
def splitCSGo : List Char → List Char → List (List Char)
  | cur, [] => [cur.reverse]
  | cur, [c] => splitCSGo (c :: cur) []
  | cur, c :: c2 :: cs =>
    if c = ',' ∧ c2 = ' ' then cur.reverse :: splitCSGo [] cs
    else splitCSGo (c :: cur) (c2 :: cs)

def splitCommaSpace (s : List Char) : List (List Char) := splitCSGo [] s

/-- `", ".join parts`. -/
def joinCommaSpace : List (List Char) → List Char
  | [] => []
  | [p] => p
  | p :: q :: r => p ++ ',' :: ' ' :: joinCommaSpace (q :: r)

/-- Python `s.rsplit(', ', 2)`.  Because occurrences of `", "` can never
overlap each other, splitting at the two rightmost occurrences equals taking
the full split and re-joining all but the last two fragments. -/
def pyRSplit2 (s : List Char) : List (List Char) :=
  let parts := splitCommaSpace s
  if parts.length ≤ 3 then parts
  else joinCommaSpace (parts.take (parts.length - 2)) :: parts.drop (parts.length - 2)

/-- First-occurrence association-list lookup (Python `dict` read). -/
def lookupAssoc {α : Type} : List (String × α) → String → Option α
  | [], _ => none
  | (k, v) :: r, q => if k = q then some v else lookupAssoc r q

/-- Python `dict` write `d[k] = v`: replace the binding if present, else add. -/
def upsert {α : Type} : List (String × α) → String → α → List (String × α)
  | [], k, v => [(k, v)]
  | (k', v') :: r, k, v => if k' = k then (k, v) :: r else (k', v') :: upsert r k v

/-! ## Key normalizer (`normalize_org_name`, `create_facility_key`) -/

/-- The ordered replacement table of `normalize_org_name` (lines 23-38 of
process_admin_emails.py; Python dicts iterate in insertion order). -/
def replacementTable : List (List Char × List Char) :=
  [ (" INC.".toList, " INC".toList), (" INC,".toList, " INC".toList),
    (" LLC.".toList, " LLC".toList), (" LLC,".toList, " LLC".toList),
    (" P.C.".toList, " PC".toList), (" P.C,".toList, " PC".toList),
    (" P.A.".toList, " PA".toList), (" P.A,".toList, " PA".toList),
    (" L.L.C.".toList, " LLC".toList), (" L.L.C".toList, " LLC".toList),
    (" L.P.".toList, " LP".toList), (" PLLC.".toList, " PLLC".toList),
    ([','], []), (['.'], []) ]

def applyReplacements (s : List Char) : List Char :=
  replacementTable.foldl (fun acc pr => pyReplace pr.1 pr.2 acc) s

/-- Core of `normalize_org_name` on character lists: upper-case, strip,
apply the replacement table in order, collapse whitespace. -/
def normChars (l : List Char) : List Char :=
  collapseWs (applyReplacements (pyStrip (l.map pyToUpper)))

/-- `normalize_org_name(name)`; a missing (`NaN`) input is `none` and yields
the empty string. -/
def normalize_org_name (name : Option String) : String :=
  match name with
  | none => ""
  | some s => (normChars s.toList).asString

/-- `str(city).upper().strip() if not pd.isna(city) else ""` as used by
`create_facility_key`. -/
def upperStrip (x : Option String) : String :=
  match x with
  | none => ""
  | some s => (pyStrip (s.toList.map pyToUpper)).asString

/-- `create_facility_key(org_name, city, state)`: `"ORG, CITY, STATE"` when
all three normalized components are nonempty, otherwise `None`. -/
def create_facility_key (org city state : Option String) : Option String :=
  let o := normalize_org_name org
  let c := upperStrip city
  let st := upperStrip state
  if o ≠ "" ∧ c ≠ "" ∧ st ≠ "" then some (o ++ ", " ++ c ++ ", " ++ st) else none

/-! ## Email generator (`generate_email`, identical in both source modules) -/

def isLowerAl (c : Char) : Bool := decide (97 ≤ c.toNat ∧ c.toNat ≤ 122)

/-- Name cleaning of `generate_email`: `str(x).strip().lower()` followed by
`re.sub(r'[^a-z]', '', ·)`. -/
def cleanChars (s : String) : List Char :=
  ((pyStrip s.toList).map pyToLower).filter isLowerAl

/-- The cleaned name as a string; a missing name cleans to `""`. -/
def cleanedName : Option String → String
  | none => ""
  | some s => (cleanChars s).asString

/-- The format-template enumeration recognized by `generate_email`. -/
def recognizedFormats : List String :=
  ["[first].[last]", "[first_initial][last]", "[first][last_initial]", "[first]",
   "[last]", "[first]_[last]", "[first]-[last]", "[first][last]"]

/-- `generate_email(first_name, last_name, email_format, domain)`.  Missing
(`None`/`NaN`) or empty names, names that clean to nothing, and template tags
outside the recognized enumeration all yield `None`. -/
def generate_email (first_name last_name : Option String) (email_format domain : String) :
    Option String :=
  match first_name, last_name with
  | some f, some l =>
    if f = "" ∨ l = "" then none
    else
      let first := cleanChars f
      let last := cleanChars l
      if first.isEmpty ∨ last.isEmpty then none
      else
        let fi := first.take 1
        let li := last.take 1
        let d := domain.toList
        if email_format = "[first].[last]" then some ((first ++ '.' :: last ++ '@' :: d).asString)
        else if email_format = "[first_initial][last]" then some ((fi ++ last ++ '@' :: d).asString)
        else if email_format = "[first][last_initial]" then some ((first ++ li ++ '@' :: d).asString)
        else if email_format = "[first]" then some ((first ++ '@' :: d).asString)
        else if email_format = "[last]" then some ((last ++ '@' :: d).asString)
        else if email_format = "[first]_[last]" then some ((first ++ '_' :: last ++ '@' :: d).asString)
        else if email_format = "[first]-[last]" then some ((first ++ '-' :: last ++ '@' :: d).asString)
        else if email_format = "[first][last]" then some ((first ++ last ++ '@' :: d).asString)
        else none
  | _, _ => none

/-! ## Facility matcher (`FacilityMatcher`) -/

/-- The part of a format-table value the matcher and generator consume. -/
structure FormatInfo where
  format : String
  domain : String
  deriving DecidableEq, Repr, Inhabited

/-- One entry of a city/state location bucket (`{'key': key, 'org_name': org}`). -/
structure BucketEntry where
  key : String
  org_name : String
  deriving DecidableEq, Repr, Inhabited

/-- Append a bucket entry under `loc`, creating the bucket if absent
(`FacilityMatcher.__init__`'s dict-of-lists construction). -/
def addToBuckets (loc : String) (be : BucketEntry) :
    List (String × List BucketEntry) → List (String × List BucketEntry)
  | [] => [(loc, [be])]
  | (l, es) :: rest =>
    if l = loc then (l, es ++ [be]) :: rest else (l, es) :: addToBuckets loc be rest

/-- `self.facilities_by_location`: group the format-table keys by their
`"CITY, STATE"` tail, obtained by `key.rsplit(', ', 2)`. -/
def facilities_by_location (fmts : List (String × FormatInfo)) :
    List (String × List BucketEntry) :=
  fmts.foldl
    (fun bks kv =>
      match pyRSplit2 kv.1.toList with
      | [o, c, s] => addToBuckets ((c ++ ',' :: ' ' :: s).asString) ⟨kv.1, o.asString⟩ bks
      | _ => bks)
    []

/-- `f"{str(city).upper().strip()}, ..."` of `match_facility`: missing values
go through `str(...)` without an isna-guard, so `NaN` prints as `nan`. -/
def locComponent : Option String → String
  | none => "NAN"
  | some s => (pyStrip (s.toList.map pyToUpper)).asString

/-- `np.argmax`: index of the first occurrence of the maximum. -/
def argmaxGo : List ℚ → Nat → ℚ → Nat → Nat
  | [], bi, _, _ => bi
  | x :: xs, bi, bv, i => if bv < x then argmaxGo xs i x (i + 1) else argmaxGo xs bi bv (i + 1)

def argmaxFirst : List ℚ → Nat
  | [] => 0
  | x :: xs => argmaxGo xs 0 x 1

structure MatchResult where
  matched_key : String
  match_type : String
  match_score : ℚ
  format_info : FormatInfo
  deriving DecidableEq, Repr

/-- Tiers 2 and 3 of `FacilityMatcher.match_facility` (reached when the exact
tier misses).  `sim a b` abstracts the TF-IDF cosine similarity between the
normalized input org name `a` and a candidate org name `b`.  The source reads
`self.email_formats[candidate['key']]` directly — a lookup that cannot fail
because every bucket entry was built from a table key (proved below as
`facilities_by_location_keys`); here that read is an `Option.map`/`bind` on
the association-list lookup. -/
def matchTiers23 (fmts : List (String × FormatInfo)) (threshold : ℚ)
    (sim : String → String → ℚ) (org city state : Option String) : Option MatchResult :=
  let location := locComponent city ++ ", " ++ locComponent state
  match lookupAssoc (facilities_by_location fmts) location with
  | none => none
  | some candidates =>
    let normalizedOrg := normalize_org_name org
    match candidates.find? (fun c => c.org_name = normalizedOrg) with
    | some cand => (lookupAssoc fmts cand.key).map fun v => ⟨cand.key, "fuzzy_exact", 1, v⟩
    | none =>
      if candidates.isEmpty then none
      else
        let sims := candidates.map fun c => sim normalizedOrg c.org_name
        let bestIdx := argmaxFirst sims
        let bestScore := sims.getD bestIdx 0
        if threshold ≤ bestScore then
          (lookupAssoc fmts (candidates.getD bestIdx default).key).map fun v =>
            ⟨(candidates.getD bestIdx default).key, "tfidf", bestScore, v⟩
        else none

/-- `FacilityMatcher.match_facility(org_name, city, state)`: exact key, then
fuzzy-exact within the city/state bucket, then best similarity vs threshold. -/
def match_facility (fmts : List (String × FormatInfo)) (threshold : ℚ)
    (sim : String → String → ℚ) (org city state : Option String) : Option MatchResult :=
  match create_facility_key org city state with
  | some exactKey =>
    match lookupAssoc fmts exactKey with
    | some v => some ⟨exactKey, "exact", 1, v⟩
    | none => matchTiers23 fmts threshold sim org city state
  | none => matchTiers23 fmts threshold sim org city state

/-! ## Per-record processing (`process_single_record`) -/

structure AdminRow where
  org : Option String
  city : Option String
  state : Option String
  firstName : Option String
  lastName : Option String
  deriving DecidableEq, Repr

structure ProcessedRecord where
  facility_key : Option String
  matched_facility : Option String
  match_type : Option String
  match_score : Option ℚ
  generated_email : Option String
  email_format_used : Option String
  email_domain : Option String
  deriving DecidableEq, Repr

/-- `process_single_record`: annotate one admin row.  The result starts with
every output field null; a missing facility key short-circuits, an unmatched
facility leaves all six match/email fields null, and a failed email
generation leaves the three email fields null. -/
def process_single_record (fmts : List (String × FormatInfo)) (threshold : ℚ)
    (sim : String → String → ℚ) (row : AdminRow) : ProcessedRecord :=
  let fk := create_facility_key row.org row.city row.state
  let base : ProcessedRecord := ⟨fk, none, none, none, none, none, none⟩
  match fk with
  | none => base
  | some _ =>
    match match_facility fmts threshold sim row.org row.city row.state with
    | none => base
    | some m =>
      match generate_email row.firstName row.lastName m.format_info.format m.format_info.domain with
      | none =>
        { base with
          matched_facility := some m.matched_key
          match_type := some m.match_type
          match_score := some m.match_score }
      | some e =>
        { base with
          matched_facility := some m.matched_key
          match_type := some m.match_type
          match_score := some m.match_score
          generated_email := some e
          email_format_used := some m.format_info.format
          email_domain := some m.format_info.domain }

/-! ## Regex scanners for the text format extractor

The extractor's fixed regular expressions are embedded as backtracking
scanners.  `dropLit` matches a literal (written lower-case, compared
case-insensitively, matching `re.IGNORECASE`); `repGreedy` matches a greedy
character-class repetition with a minimum count, backtracking through a
continuation; `searchPos` tries successive start positions like `re.search`. -/

/-- Character classes of the source regexes (IGNORECASE makes `[a-z]` accept
both cases). -/
def isAlphaCI (c : Char) : Bool :=
  decide ((97 ≤ c.toNat ∧ c.toNat ≤ 122) ∨ (65 ≤ c.toNat ∧ c.toNat ≤ 90))

def isDigitCh (c : Char) : Bool := decide (48 ≤ c.toNat ∧ c.toNat ≤ 57)

/-- `[a-z0-9\-\.]` under IGNORECASE; also `[a-zA-Z0-9.-]` of the fallback. -/
def isDomainCh (c : Char) : Bool := isAlphaCI c || isDigitCh c || c = '-' || c = '.'

/-- `[a-zA-Z0-9]`. -/
def isAlnumCh (c : Char) : Bool := isAlphaCI c || isDigitCh c

/-- `\w` for the `\b` word-boundary test (ASCII model). -/
def isWordCh (c : Char) : Bool := isAlnumCh c || c = '_'

/-- Case-insensitive literal: `pat` is written lower-case. -/
def dropLit : List Char → List Char → Option (List Char)
  | [], s => some s
  | _ :: _, [] => none
  | p :: ps, c :: cs => if pyToLower c = p then dropLit ps cs else none

/-- Try `f i`, `f (i-1)`, ..., `f lo`, first success wins. -/
def downTry {R : Type} (f : Nat → Option R) (lo : Nat) : Nat → Option R
  | 0 => if lo = 0 then f 0 else none
  | i + 1 =>
    if i + 1 < lo then none
    else
      match f (i + 1) with
      | some r => some r
      | none => downTry f lo i

/-- Greedy `class{lo,}`: consume the longest run of `p`-characters allowing
the continuation `k consumed rest` to succeed, at least `lo` of them. -/
def repGreedy {R : Type} (p : Char → Bool) (lo : Nat) (s : List Char)
    (k : List Char → List Char → Option R) : Option R :=
  downTry (fun i => k (s.take i) (s.drop i)) lo (s.takeWhile p).length

/-- Exactly one `p`-character. -/
def oneCh {R : Type} (p : Char → Bool) (s : List Char) (k : Char → List Char → Option R) :
    Option R :=
  match s with
  | [] => none
  | c :: cs => if p c then k c cs else none

/-- `re.search`: try the anchored attempt at each position, left to right. -/
def searchPos {R : Type} (att : List Char → Option R) : List Char → Option R
  | [] => att []
  | c :: cs =>
    match att (c :: cs) with
    | some r => some r
    | none => searchPos att cs

/-- One extracted candidate format tuple. -/
structure Candidate where
  format : String
  domain : String
  example_email : String
  source : String
  confidence : String
  deriving DecidableEq, Repr, Inhabited

/-! ### Pattern group 1: bracket template mentions -/

/-- `([a-z]+sep[a-z]+@[a-z0-9\-\.]+)` returning the captured text. -/
def capSepEmail (sep : Char) (t : List Char) : Option (List Char) :=
  repGreedy isAlphaCI 1 t fun g1 t1 =>
    (dropLit [sep] t1).bind fun t2 =>
      repGreedy isAlphaCI 1 t2 fun g2 t3 =>
        (dropLit ['@'] t3).bind fun t4 =>
          repGreedy isDomainCh 1 t4 fun g3 _ =>
            some (g1 ++ sep :: g2 ++ '@' :: g3)

/-- `([a-z]+@[a-z0-9\-\.]+)`. -/
def capSimpleEmail (t : List Char) : Option (List Char) :=
  repGreedy isAlphaCI 1 t fun g1 t1 =>
    (dropLit ['@'] t1).bind fun t2 =>
      repGreedy isDomainCh 1 t2 fun g2 _ =>
        some (g1 ++ '@' :: g2)

/-- `\s*\(ex\.\s*` followed by a capture. -/
def exTail (cap : List Char → Option (List Char)) (t : List Char) : Option (List Char) :=
  repGreedy pyWs 0 t fun _ t1 =>
    (dropLit "(ex.".toList t1).bind fun t2 =>
      repGreedy pyWs 0 t2 fun _ t3 => cap t3

/-- A bracket pattern without alternation: literal template text then the
`(ex. ...)` capture. -/
def bracketAttempt (lead : List Char) (cap : List Char → Option (List Char))
    (t : List Char) : Option (List Char) :=
  (dropLit lead t).bind (exTail cap)

/-- `(?:format is |pattern is )lead\s*\(ex\.\s*capture` for the two
prefixed bracket patterns. -/
def prefixedBracketAttempt (lead : List Char) (cap : List Char → Option (List Char))
    (t : List Char) : Option (List Char) :=
  match (dropLit "format is ".toList t).bind (fun r => bracketAttempt lead cap r) with
  | some r => some r
  | none => (dropLit "pattern is ".toList t).bind fun r => bracketAttempt lead cap r

/-- The seven bracket patterns, in source order (extract_email_formats.py
lines 22-30), each paired with its format name. -/
def bracketPatterns : List ((List Char → Option (List Char)) × String) :=
  [ (bracketAttempt "[first].[last]".toList (capSepEmail '.'), "[first].[last]"),
    (bracketAttempt "[first]_[last]".toList (capSepEmail '_'), "[first]_[last]"),
    (bracketAttempt "[first]-[last]".toList (capSepEmail '-'), "[first]-[last]"),
    (bracketAttempt "[first_initial][last]".toList capSimpleEmail, "[first_initial][last]"),
    (bracketAttempt "[first][last_initial]".toList capSimpleEmail, "[first][last_initial]"),
    (prefixedBracketAttempt "[first]".toList capSimpleEmail, "[first]"),
    (prefixedBracketAttempt "[last]".toList capSimpleEmail, "[last]") ]

/-- `example_email.split('@')[1] if '@' in example_email else None`. -/
def afterAt : List Char → Option (List Char)
  | [] => none
  | '@' :: r => some (r.takeWhile fun c => decide (c ≠ '@'))
  | _ :: r => afterAt r

/-- Build the group-1 candidate from a captured example email. -/
def mkBracketCand (fmtName : String) (link : String) (cap : List Char) : Option Candidate :=
  let ex := cap.map pyToLower
  match afterAt ex with
  | none => none
  | some d => if d.isEmpty then none else some ⟨fmtName, d.asString, ex.asString, link, "high"⟩

/-- Pattern group 1: every bracket pattern is searched and all matches are
appended, in pattern order (the source loop has no break). -/
def bracketFormats (text link : String) : List Candidate :=
  bracketPatterns.filterMap fun pn =>
    (searchPos pn.1 text.toList).bind (mkBracketCand pn.2 link)

/-! ### Pattern group 2: numbered ranked formats -/

/-- `([a-z0-9\-\.]+\.[a-z]{2,})`: the domain capture of groups 2 and 3. -/
def domCapture {R : Type} (t : List Char) (k : List Char → List Char → Option R) : Option R :=
  repGreedy isDomainCh 1 t fun d1 t1 =>
    (dropLit ['.'] t1).bind fun t2 =>
      repGreedy isAlphaCI 2 t2 fun d2 t3 =>
        k (d1 ++ '.' :: d2) t3

/-- `\s*\(` closing the numbered patterns. -/
def closeParen {R : Type} (t : List Char) (r : R) : Option R :=
  repGreedy pyWs 0 t fun _ t1 => (dropLit ['('] t1).map fun _ => r

/-- `1\.\s+([a-z]+)sep([a-z]+)@domain\s*\(` for sep in `.`/`_`/`-`. -/
def numSepAttempt (sep : Char) (t : List Char) : Option (List Char × List Char × List Char) :=
  (dropLit "1.".toList t).bind fun t1 =>
    repGreedy pyWs 1 t1 fun _ t2 =>
      repGreedy isAlphaCI 1 t2 fun g1 t3 =>
        (dropLit [sep] t3).bind fun t4 =>
          repGreedy isAlphaCI 1 t4 fun g2 t5 =>
            (dropLit ['@'] t5).bind fun t6 =>
              domCapture t6 fun dom t7 => closeParen t7 (g1, g2, dom)

/-- `1\.\s+([a-z])([a-z]{2,})@domain\s*\(`. -/
def numInitAttempt (t : List Char) : Option (List Char × List Char × List Char) :=
  (dropLit "1.".toList t).bind fun t1 =>
    repGreedy pyWs 1 t1 fun _ t2 =>
      oneCh isAlphaCI t2 fun c t3 =>
        repGreedy isAlphaCI 2 t3 fun g2 t4 =>
          (dropLit ['@'] t4).bind fun t5 =>
            domCapture t5 fun dom t6 => closeParen t6 ([c], g2, dom)

/-- `1\.\s+([a-z]{2,})@domain\s*\(`. -/
def numSimpleAttempt (t : List Char) : Option (List Char × List Char) :=
  (dropLit "1.".toList t).bind fun t1 =>
    repGreedy pyWs 1 t1 fun _ t2 =>
      repGreedy isAlphaCI 2 t2 fun g1 t3 =>
        (dropLit ['@'] t3).bind fun t4 =>
          domCapture t4 fun dom t5 => closeParen t5 (g1, dom)

/-- Candidate for a separator-style numbered match: the example is the
reconstructed `first sep last @ domain`, lower-cased; the domain keeps its
matched case (the source stores `groups[-1]` unlowered). -/
def mkNumSepCand (fmtName : String) (sep : Char) (link : String)
    (g : List Char × List Char × List Char) : Candidate :=
  ⟨fmtName, g.2.2.asString, ((g.1 ++ sep :: g.2.1 ++ '@' :: g.2.2).map pyToLower).asString,
    link, "high"⟩

/-- Pattern group 2: the five numbered patterns in source order; the loop
breaks at the first matching pattern, so at most one candidate results. -/
def numberedCand (text link : String) : Option Candidate :=
  let t := text.toList
  match searchPos (numSepAttempt '.') t with
  | some g => some (mkNumSepCand "[first].[last]" '.' link g)
  | none =>
  match searchPos (numSepAttempt '_') t with
  | some g => some (mkNumSepCand "[first]_[last]" '_' link g)
  | none =>
  match searchPos (numSepAttempt '-') t with
  | some g => some (mkNumSepCand "[first]-[last]" '-' link g)
  | none =>
  match searchPos numInitAttempt t with
  | some g =>
    some ⟨"[first_initial][last]", g.2.2.asString,
      ((g.1 ++ g.2.1 ++ '@' :: g.2.2).map pyToLower).asString, link, "high"⟩
  | none =>
  match searchPos numSimpleAttempt t with
  | some g =>
    some ⟨"[first]", g.2.asString, ((g.1 ++ '@' :: g.2).map pyToLower).asString, link, "high"⟩
  | none => none

def numberedFormats (text link : String) : List Candidate := (numberedCand text link).toList

/-! ### Pattern group 3: capitalized template mentions -/

/-- `(?:pattern of |format of )?lead@domain` (all case-insensitive); the
optional prefix never affects whether a match exists or what is captured. -/
def leadiqAttempt (lead : List Char) (t : List Char) : Option (List Char) :=
  let core := fun (u : List Char) =>
    (dropLit lead u).bind fun u1 =>
      (dropLit ['@'] u1).bind fun u2 =>
        domCapture u2 fun dom _ => some dom
  match (dropLit "pattern of ".toList t).bind core with
  | some r => some r
  | none =>
    match (dropLit "format of ".toList t).bind core with
    | some r => some r
    | none => core t

/-- The six capitalized patterns in source order, with the canonical example
local part each synthesizes. -/
def leadiqPatterns : List (List Char × String × String) :=
  [ ("flast".toList, "[first_initial][last]", "jdoe"),
    ("first.last".toList, "[first].[last]", "jane.doe"),
    ("first_last".toList, "[first]_[last]", "jane_doe"),
    ("first-last".toList, "[first]-[last]", "jane-doe"),
    ("firstlast".toList, "[first][last]", "janedoe"),
    ("first".toList, "[first]", "jane") ]

/-- Pattern group 3: all six patterns are searched and every match appends a
candidate (no break), with a synthesized example and the lower-cased domain. -/
def leadiqFormats (text link : String) : List Candidate :=
  leadiqPatterns.filterMap fun p =>
    (searchPos (leadiqAttempt p.1) text.toList).map fun dom =>
      let d := (dom.map pyToLower).asString
      ⟨p.2.1, d, p.2.2 ++ "@" ++ d, link, "high"⟩

/-! ### Pattern group 4: fallback bare-email inference -/

/-- An email-shaped token matched by the fallback regex
`\b([a-zA-Z0-9]+(?:[._-][a-zA-Z0-9]+)?)@([a-zA-Z0-9.-]+\.[a-zA-Z]{2,})\b`
(original case, as matched). -/
structure EmailTok where
  localPart : List Char
  domainPart : List Char
  deriving DecidableEq, Repr

/-- `[._-]`, the optional separator inside the fallback local part. -/
def isSepCh (c : Char) : Bool := c = '.' || c = '_' || c = '-'

/-- The fallback email pattern anchored at the current position (the leading
`\b` is checked by the scanner); returns the token and the rest of the text. -/
def emailAttempt (t : List Char) : Option (EmailTok × List Char) :=
  repGreedy isAlnumCh 1 t fun l1 t1 =>
    let afterLocal := fun (lp : List Char) (u : List Char) =>
      (dropLit ['@'] u).bind fun u1 =>
        repGreedy isDomainCh 1 u1 fun d1 u2 =>
          (dropLit ['.'] u2).bind fun u3 =>
            repGreedy isAlphaCI 2 u3 fun d2 u4 =>
              match u4.head? with
              | some c => if isWordCh c then none else some (⟨lp, d1 ++ '.' :: d2⟩, u4)
              | none => some (⟨lp, d1 ++ '.' :: d2⟩, u4)
    match
      oneCh isSepCh t1 fun sc t2 =>
        repGreedy isAlnumCh 1 t2 fun l2 t3 => afterLocal (l1 ++ sc :: l2) t3
    with
    | some r => some r
    | none => afterLocal l1 t1

/-- `re.finditer` for the fallback email pattern: scan left to right,
skipping positions that fail the word-boundary test, resuming after each
match.  Each step consumes at least one character, so fuel `|s|` suffices. -/
def emailMatchesAux : Nat → Option Char → List Char → List EmailTok
  | 0, _, _ => []
  | _ + 1, _, [] => []
  | f + 1, prev, c :: cs =>
    if isAlnumCh c && (match prev with | some p => !isWordCh p | none => true) then
      match emailAttempt (c :: cs) with
      | some (tok, rest) => tok :: emailMatchesAux f tok.domainPart.getLast? rest
      | none => emailMatchesAux f (some c) cs
    else emailMatchesAux f (some c) cs

def emailMatches (t : List Char) : List EmailTok := emailMatchesAux t.length none t

/-- `infer_format_from_local_part(local_part)` (the local part arrives
already lower-cased). -/
def infer_format_from_local_part (local_part : String) : Option String :=
  let l := local_part.toList
  if l.contains '.' then
    match splitCh '.' l with
    | [p1, p2] => if 1 < p1.length ∧ 1 < p2.length then some "[first].[last]" else none
    | _ => none
  else if l.contains '_' then
    match splitCh '_' l with
    | [p1, p2] => if 1 < p1.length ∧ 1 < p2.length then some "[first]_[last]" else none
    | _ => none
  else if l.contains '-' then
    match splitCh '-' l with
    | [p1, p2] => if 1 < p1.length ∧ 1 < p2.length then some "[first]-[last]" else none
    | _ => none
  else if 2 < l.length then
    if l.length ≤ 6 then some "[first_initial][last]" else some "[first]"
  else none

/-- The fallback loop body: take the first email token whose lower-cased
local part yields an inferable format (tokens inferring `None` are passed
over), then stop. -/
def firstInfer (link : String) : List EmailTok → List Candidate
  | [] => []
  | m :: ms =>
    let lp := (m.localPart.map pyToLower).asString
    let d := (m.domainPart.map pyToLower).asString
    match infer_format_from_local_part lp with
    | some fmt => [⟨fmt, d, lp ++ "@" ++ d, link, "medium"⟩]
    | none => firstInfer link ms

def fallbackFormats (text link : String) : List Candidate :=
  firstInfer link (emailMatches text.toList)

/-! ### The extractor -/

/-- The candidates accumulated by pattern groups 1-3 (all three groups run
unconditionally, in order; only group 2 stops at its first pattern). -/
def groups123 (text link : String) : List Candidate :=
  bracketFormats text link ++ numberedFormats text link ++ leadiqFormats text link

/-- `extract_formats_from_text_improved(text, source_link)`: groups 1-3 are
always collected; the fallback group 4 runs only when they produced nothing. -/
def extract_formats_from_text_improved (text link : String) : List Candidate :=
  let e := groups123 text link
  if e.isEmpty then fallbackFormats text link else e

/-! ## Source prioritizer (`extract_formats_from_serper_results`) -/

structure AnswerBox where
  snippet : String
  link : String
  deriving DecidableEq, Repr

structure OrganicResult where
  link : String
  snippet : String
  deriving DecidableEq, Repr

structure SearchResults where
  answerBox : Option AnswerBox
  organic : List OrganicResult
  deriving DecidableEq, Repr

structure SerperEntry where
  facility : String
  results : Option SearchResults
  deriving DecidableEq, Repr

/-- A chosen best match: the candidate plus its `source_type` annotation. -/
structure PrioritizedCand where
  cand : Candidate
  source_type : String
  deriving DecidableEq, Repr

/-- The base priority weight of an organic result's link. -/
def source_priority (link : String) : Nat :=
  if containsSeq "rocketreach.co".toList link.toList then 80
  else if containsSeq "leadiq.com".toList link.toList then 70
  else if containsSeq "contactout.com".toList link.toList then 60
  else if containsSeq "signalhire.com".toList link.toList then 50
  else 0

/-- The organic-results loop: an entry is extracted only when its computed
priority (base weight plus a position-0 bonus of 10) exceeds the best
priority so far, and replaces the best only if extraction is non-empty. -/
def organicScan : List OrganicResult → Option PrioritizedCand → Nat → Nat →
    Option PrioritizedCand × Nat
  | [], best, bp, _ => (best, bp)
  | o :: rest, best, bp, pos =>
    let priority := source_priority o.link + (if pos = 0 then 10 else 0)
    if bp < priority then
      match extract_formats_from_text_improved o.snippet o.link with
      | [] => organicScan rest best bp (pos + 1)
      | c :: _ => organicScan rest (some ⟨c, "organic"⟩) priority (pos + 1)
    else organicScan rest best bp (pos + 1)

/-- The per-facility selection: answer box first at weight 100; the organic
loop runs only when no answer-box match exists or its priority is below 90. -/
def entryBest (e : SerperEntry) : Option PrioritizedCand :=
  match e.results with
  | none => none
  | some sr =>
    let ab : Option PrioritizedCand × Nat :=
      match sr.answerBox with
      | none => (none, 0)
      | some box =>
        match extract_formats_from_text_improved box.snippet box.link with
        | [] => (none, 0)
        | c :: _ => (some ⟨c, "answerBox"⟩, 100)
    if ab.1.isNone ∨ ab.2 < 90 then (organicScan sr.organic ab.1 ab.2 0).1 else ab.1

/-- `extract_formats_from_serper_results`: fold the entries into the output
format table, storing only facilities that produced a best match. -/
def extract_formats_from_serper_results (entries : List SerperEntry) :
    List (String × PrioritizedCand) :=
  entries.foldl
    (fun acc e =>
      match entryBest e with
      | some bm => upsert acc e.facility bm
      | none => acc)
    []

/-! ## Lemmas about the character primitives -/

theorem toNat_charOfNat {n : Nat} (h : n < 55296) : (Char.ofNat n).toNat = n := by
  have hv : n.isValidChar := Or.inl h
  rw [Char.ofNat, dif_pos hv]
  simp [Char.ofNatAux, Char.toNat, UInt32.toNat, UInt32.ofNatCore]

theorem pyToUpper_pyToUpper (c : Char) : pyToUpper (pyToUpper c) = pyToUpper c := by
  unfold pyToUpper
  by_cases h : 97 ≤ c.toNat ∧ c.toNat ≤ 122
  · rw [if_pos h]
    have hn : (Char.ofNat (c.toNat - 32)).toNat = c.toNat - 32 :=
      toNat_charOfNat (by omega)
    rw [if_neg (by omega)]
  · rw [if_neg h, if_neg h]

/-- The characters produced by `pyToUpper` are fixed points of `pyToUpper`. -/
def UpperFixed (c : Char) : Prop := pyToUpper c = c

theorem upperFixed_pyToUpper (c : Char) : UpperFixed (pyToUpper c) := pyToUpper_pyToUpper c

theorem upperFixed_of_not_lower {c : Char} (h : ¬(97 ≤ c.toNat ∧ c.toNat ≤ 122)) :
    UpperFixed c := by
  unfold UpperFixed pyToUpper
  rw [if_neg h]

theorem map_eq_self_of_fixed {f : Char → Char} {l : List Char}
    (h : ∀ c ∈ l, f c = c) : l.map f = l := by
  induction l with
  | nil => rfl
  | cons c t ih =>
    simp only [List.map_cons, h c (by simp), ih fun x hx => h x (List.mem_cons_of_mem c hx)]

/-! ## Lemmas about `pyReplace` -/

theorem startsWithSeq_false_of_absent {pat s : List Char} {c₀ : Char}
    (hmem : c₀ ∈ pat) (habs : c₀ ∉ s) : startsWithSeq pat s = false := by
  induction pat generalizing s with
  | nil => cases hmem
  | cons p ps ih =>
    cases s with
    | nil => rfl
    | cons c cs =>
      simp only [startsWithSeq]
      rcases List.mem_cons.mp hmem with h | h
      · rw [if_neg]
        intro hpc
        exact habs (by simp [← hpc, ← h])
      · by_cases hpc : p = c
        · rw [if_pos hpc]
          exact ih h fun hc => habs (List.mem_cons_of_mem c hc)
        · rw [if_neg hpc]

/-- A replacement whose pattern mentions a character absent from the string
leaves the string unchanged. -/
theorem pyReplaceAux_eq_self_of_absent {pat rep : List Char} {c₀ : Char}
    (hmem : c₀ ∈ pat) : ∀ (f : Nat) (s : List Char), c₀ ∉ s → pyReplaceAux pat rep f s = s := by
  intro f
  induction f with
  | zero => intro s _; rfl
  | succ f ih =>
    intro s habs
    cases s with
    | nil => rfl
    | cons c cs =>
      rw [pyReplaceAux, startsWithSeq_false_of_absent hmem habs]
      simp only [Bool.false_eq_true, if_false, List.cons.injEq, true_and]
      exact ih cs fun hc => habs (List.mem_cons_of_mem c hc)

theorem pyReplace_eq_self_of_absent {pat rep s : List Char} {c₀ : Char}
    (hmem : c₀ ∈ pat) (habs : c₀ ∉ s) : pyReplace pat rep s = s :=
  pyReplaceAux_eq_self_of_absent hmem s.length s habs

/-- A single-character deletion replacement is a filter, provided the fuel
covers the string. -/
theorem pyReplaceAux_single_del (d : Char) :
    ∀ (f : Nat) (s : List Char), s.length ≤ f →
      pyReplaceAux [d] [] f s = s.filter (fun c => decide (c ≠ d)) := by
  intro f
  induction f with
  | zero =>
    intro s hs
    rw [Nat.le_zero, List.length_eq_zero] at hs
    subst hs; rfl
  | succ f ih =>
    intro s hs
    cases s with
    | nil => rfl
    | cons c cs =>
      simp only [List.length_cons, Nat.succ_le_succ_iff] at hs
      by_cases hcd : c = d
      · have hsw : startsWithSeq [d] (c :: cs) = true := by
          simp [startsWithSeq, hcd]
        rw [pyReplaceAux, hsw]
        simp only [if_true, List.nil_append, List.length_cons, List.length_nil,
          List.drop_succ_cons, List.drop_zero]
        rw [ih cs hs, List.filter_cons]
        simp [hcd]
      · have hsw : startsWithSeq [d] (c :: cs) = false := by
          simp [startsWithSeq]
          intro h; exact absurd h.symm hcd
        rw [pyReplaceAux, hsw]
        simp only [Bool.false_eq_true, if_false]
        rw [ih cs hs, List.filter_cons]
        simp [hcd]

theorem pyReplace_single_del (d : Char) (s : List Char) :
    pyReplace [d] [] s = s.filter (fun c => decide (c ≠ d)) :=
  pyReplaceAux_single_del d s.length s le_rfl

/-- Every output character of a replacement comes from the input or from the
replacement text. -/
theorem mem_pyReplaceAux {pat rep : List Char} :
    ∀ (f : Nat) (s : List Char) (x : Char), x ∈ pyReplaceAux pat rep f s →
      x ∈ s ∨ x ∈ rep := by
  intro f
  induction f with
  | zero => intro s x hx; exact Or.inl hx
  | succ f ih =>
    intro s x hx
    cases s with
    | nil => cases hx
    | cons c cs =>
      rw [pyReplaceAux] at hx
      by_cases hsw : startsWithSeq pat (c :: cs) = true
      · rw [if_pos hsw] at hx
        rcases List.mem_append.mp hx with h | h
        · exact Or.inr h
        · rcases ih _ x h with h2 | h2
          · exact Or.inl (List.IsSuffix.subset (List.drop_suffix _ _) h2)
          · exact Or.inr h2
      · rw [if_neg hsw] at hx
        rcases List.mem_cons.mp hx with h | h
        · exact Or.inl (h ▸ List.mem_cons_self c cs)
        · rcases ih cs x h with h2 | h2
          · exact Or.inl (List.mem_cons_of_mem c h2)
          · exact Or.inr h2

theorem mem_pyReplace {pat rep s : List Char} {x : Char} (hx : x ∈ pyReplace pat rep s) :
    x ∈ s ∨ x ∈ rep :=
  mem_pyReplaceAux s.length s x hx

theorem mem_foldl_pyReplace :
    ∀ (tbl : List (List Char × List Char)) (s : List Char) (x : Char),
      x ∈ tbl.foldl (fun acc pr => pyReplace pr.1 pr.2 acc) s →
      x ∈ s ∨ ∃ pr ∈ tbl, x ∈ pr.2 := by
  intro tbl
  induction tbl with
  | nil => intro s x hx; exact Or.inl hx
  | cons pr tbl ih =>
    intro s x hx
    rw [List.foldl_cons] at hx
    rcases ih _ x hx with h | ⟨pr', hpr', hx'⟩
    · rcases mem_pyReplace h with h2 | h2
      · exact Or.inl h2
      · exact Or.inr ⟨pr, by simp, h2⟩
    · exact Or.inr ⟨pr', List.mem_cons_of_mem pr hpr', hx'⟩

/-! ## Lemmas about `pySplit` and `joinSpace` -/

theorem mem_of_getLast?_char {l : List Char} {c : Char} (h : l.getLast? = some c) : c ∈ l := by
  rw [← List.head?_reverse] at h
  cases hrev : l.reverse with
  | nil => rw [hrev] at h; cases h
  | cons a t =>
    rw [hrev] at h
    simp only [List.head?_cons, Option.some.injEq] at h
    subst h
    exact List.mem_reverse.mp (hrev ▸ List.mem_cons_self a t)

/-- Fragments produced by `pySplit` are nonempty and whitespace-free. -/
theorem pySplitAcc_props :
    ∀ (s cur : List Char), (∀ c ∈ cur, pyWs c = false) →
      ∀ p ∈ pySplitAcc cur s, p ≠ [] ∧ ∀ c ∈ p, pyWs c = false := by
  intro s
  induction s with
  | nil =>
    intro cur hcur p hp
    rw [pySplitAcc] at hp
    by_cases hce : cur.isEmpty
    · rw [if_pos hce] at hp; cases hp
    · rw [if_neg hce] at hp
      rcases List.mem_singleton.mp hp with rfl
      constructor
      · simp only [ne_eq, List.reverse_eq_nil_iff]
        exact fun h => hce (by simp [h])
      · intro c hc; exact hcur c (List.mem_reverse.mp hc)
  | cons c cs ih =>
    intro cur hcur p hp
    rw [pySplitAcc] at hp
    by_cases hw : pyWs c = true
    · rw [if_pos hw] at hp
      by_cases hce : cur.isEmpty
      · rw [if_pos hce] at hp
        exact ih [] (by simp) p hp
      · rw [if_neg hce] at hp
        rcases List.mem_cons.mp hp with rfl | hmem
        · constructor
          · simp only [ne_eq, List.reverse_eq_nil_iff]
            exact fun h => hce (by simp [h])
          · intro x hx; exact hcur x (List.mem_reverse.mp hx)
        · exact ih [] (by simp) p hmem
    · rw [if_neg hw] at hp
      refine ih (c :: cur) ?_ p hp
      intro x hx
      rcases List.mem_cons.mp hx with rfl | hx2
      · simpa using hw
      · exact hcur x hx2

/-- Every character of a `pySplit` fragment comes from the input. -/
theorem mem_pySplitAcc :
    ∀ (s cur : List Char) (p : List Char) (x : Char),
      p ∈ pySplitAcc cur s → x ∈ p → x ∈ s ∨ x ∈ cur := by
  intro s
  induction s with
  | nil =>
    intro cur p x hp hx
    rw [pySplitAcc] at hp
    by_cases hce : cur.isEmpty
    · rw [if_pos hce] at hp; cases hp
    · rw [if_neg hce] at hp
      rcases List.mem_singleton.mp hp with rfl
      exact Or.inr (List.mem_reverse.mp hx)
  | cons c cs ih =>
    intro cur p x hp hx
    rw [pySplitAcc] at hp
    by_cases hw : pyWs c = true
    · rw [if_pos hw] at hp
      by_cases hce : cur.isEmpty
      · rw [if_pos hce] at hp
        rcases ih [] p x hp hx with h | h
        · exact Or.inl (List.mem_cons_of_mem c h)
        · cases h
      · rw [if_neg hce] at hp
        rcases List.mem_cons.mp hp with rfl | hmem
        · exact Or.inr (List.mem_reverse.mp hx)
        · rcases ih [] p x hmem hx with h | h
          · exact Or.inl (List.mem_cons_of_mem c h)
          · cases h
    · rw [if_neg hw] at hp
      rcases ih (c :: cur) p x hp hx with h | h
      · exact Or.inl (List.mem_cons_of_mem c h)
      · rcases List.mem_cons.mp h with rfl | h2
        · exact Or.inl (List.mem_cons_self x cs)
        · exact Or.inr h2

theorem mem_joinSpace :
    ∀ (parts : List (List Char)) (x : Char), x ∈ joinSpace parts →
      (∃ p ∈ parts, x ∈ p) ∨ x = ' ' := by
  intro parts
  induction parts with
  | nil => intro x hx; cases hx
  | cons p rest ih =>
    intro x hx
    cases rest with
    | nil =>
      rw [joinSpace] at hx
      exact Or.inl ⟨p, by simp, hx⟩
    | cons q r =>
      rw [joinSpace] at hx
      rcases List.mem_append.mp hx with h | h
      · exact Or.inl ⟨p, by simp, h⟩
      · rcases List.mem_cons.mp h with rfl | h2
        · exact Or.inr rfl
        · rcases ih x h2 with ⟨p', hp', hx'⟩ | h3
          · exact Or.inl ⟨p', List.mem_cons_of_mem p hp', hx'⟩
          · exact Or.inr h3

/-- Pushing a whitespace-free block through the splitter accumulates it. -/
theorem pySplitAcc_append :
    ∀ (p : List Char), (∀ c ∈ p, pyWs c = false) →
      ∀ (cur rest : List Char), pySplitAcc cur (p ++ rest) = pySplitAcc (p.reverse ++ cur) rest := by
  intro p
  induction p with
  | nil => intro _ cur rest; simp
  | cons c p' ih =>
    intro hp cur rest
    have hc : pyWs c = false := hp c (by simp)
    rw [List.cons_append, pySplitAcc, hc]
    simp only [Bool.false_eq_true, if_false]
    rw [ih (fun x hx => hp x (List.mem_cons_of_mem c hx)) (c :: cur) rest]
    simp [List.append_assoc]

/-- Splitting a join of nonempty whitespace-free fragments recovers them. -/
theorem pySplit_joinSpace :
    ∀ (parts : List (List Char)),
      (∀ p ∈ parts, p ≠ [] ∧ ∀ c ∈ p, pyWs c = false) →
      pySplit (joinSpace parts) = parts := by
  intro parts
  induction parts with
  | nil => intro _; rfl
  | cons p rest ih =>
    intro hprops
    have hp := hprops p (by simp)
    cases rest with
    | nil =>
      rw [joinSpace, pySplit]
      have := pySplitAcc_append p hp.2 [] []
      simp only [List.append_nil] at this
      rw [this, pySplitAcc]
      rw [if_neg (by simpa [List.isEmpty_iff] using hp.1)]
      simp
    | cons q r =>
      rw [joinSpace, pySplit, pySplitAcc_append p hp.2 [] (' ' :: joinSpace (q :: r))]
      rw [pySplitAcc]
      have hw : pyWs ' ' = true := by decide
      rw [if_pos hw, if_neg (by simpa [List.isEmpty_iff] using hp.1)]
      simp only [List.append_nil, List.reverse_reverse]
      rw [← pySplit]
      rw [ih fun x hx => hprops x (List.mem_cons_of_mem p hx)]

theorem joinSpace_ne_nil {p : List Char} {rest : List (List Char)} (hp : p ≠ []) :
    joinSpace (p :: rest) ≠ [] := by
  cases rest with
  | nil => simpa [joinSpace] using hp
  | cons q r =>
    rw [joinSpace]
    simp

/-- The first character of a join of whitespace-free fragments is not
whitespace. -/
theorem joinSpace_head_no_ws :
    ∀ (parts : List (List Char)),
      (∀ p ∈ parts, p ≠ [] ∧ ∀ c ∈ p, pyWs c = false) →
      ∀ c, (joinSpace parts).head? = some c → pyWs c = false := by
  intro parts hprops c hc
  cases parts with
  | nil => cases hc
  | cons p rest =>
    have hp := hprops p (by simp)
    cases hhead : p with
    | nil => exact absurd hhead hp.1
    | cons a t =>
      have : (joinSpace (p :: rest)).head? = some a := by
        cases rest with
        | nil => rw [joinSpace, hhead]; rfl
        | cons q r => rw [joinSpace, hhead]; rfl
      rw [this] at hc
      simp only [Option.some.injEq] at hc
      subst hc
      exact hp.2 a (hhead ▸ List.mem_cons_self a t)

/-- The last character of a join of whitespace-free fragments is not
whitespace. -/
theorem joinSpace_getLast_no_ws :
    ∀ (parts : List (List Char)),
      (∀ p ∈ parts, p ≠ [] ∧ ∀ c ∈ p, pyWs c = false) →
      ∀ c, (joinSpace parts).getLast? = some c → pyWs c = false := by
  intro parts
  induction parts with
  | nil => intro _ c hc; cases hc
  | cons p rest ih =>
    intro hprops c hc
    have hp := hprops p (by simp)
    cases rest with
    | nil =>
      rw [joinSpace] at hc
      exact hp.2 c (mem_of_getLast?_char hc)
    | cons q r =>
      rw [joinSpace] at hc
      have hqr : joinSpace (q :: r) ≠ [] := joinSpace_ne_nil (hprops q (by simp)).1
      have hlast : (joinSpace (q :: r)).getLast? = some ((joinSpace (q :: r)).getLast hqr) :=
        List.getLast?_eq_getLast _ hqr
      rw [List.getLast?_append] at hc
      have hcons : (' ' :: joinSpace (q :: r)).getLast? = (joinSpace (q :: r)).getLast? := by
        have : (' ' :: joinSpace (q :: r)) = [' '] ++ joinSpace (q :: r) := rfl
        rw [this, List.getLast?_append, hlast]
        rfl
      rw [hcons, hlast] at hc
      simp only [Option.or_some, Option.some.injEq] at hc
      exact ih (fun x hx => hprops x (List.mem_cons_of_mem p hx)) c (hc ▸ hlast)

/-- `pyStrip` is the identity on strings whose ends are not whitespace. -/
theorem pyStrip_eq_self {r : List Char}
    (h1 : ∀ c, r.head? = some c → pyWs c = false)
    (h2 : ∀ c, r.getLast? = some c → pyWs c = false) : pyStrip r = r := by
  cases hr : r with
  | nil => rfl
  | cons a t =>
    have ha : pyWs a = false := h1 a (by rw [hr]; rfl)
    rw [pyStrip, List.dropWhile_cons, ha]
    simp only [Bool.false_eq_true, if_false]
    have hne : a :: t ≠ [] := by simp
    have hlast : (a :: t).getLast? = some ((a :: t).getLast hne) := List.getLast?_eq_getLast _ hne
    have hd : pyWs ((a :: t).getLast hne) = false := h2 _ (hr ▸ hlast)
    cases hrev : (a :: t).reverse with
    | nil => simp at hrev
    | cons b u =>
      have hb : (a :: t).getLast? = some b := by
        rw [← List.head?_reverse, hrev]; rfl
      rw [hlast] at hb
      simp only [Option.some.injEq] at hb
      rw [hb] at hd
      rw [List.dropWhile_cons, hd]
      simp only [Bool.false_eq_true, if_false]
      rw [← hrev, List.reverse_reverse]

/-! ## Idempotence of the key normalizer -/

theorem mem_of_mem_dropWhileWs {p : Char → Bool} :
    ∀ {l : List Char} {x : Char}, x ∈ l.dropWhile p → x ∈ l := by
  intro l
  induction l with
  | nil => intro x hx; cases hx
  | cons c cs ih =>
    intro x hx
    rw [List.dropWhile_cons] at hx
    by_cases hc : p c = true
    · rw [if_pos hc] at hx
      exact List.mem_cons_of_mem c (ih hx)
    · rw [if_neg hc] at hx
      exact hx

theorem mem_pyStrip {s : List Char} {x : Char} (hx : x ∈ pyStrip s) : x ∈ s := by
  rw [pyStrip, List.mem_reverse] at hx
  have h1 := mem_of_mem_dropWhileWs hx
  rw [List.mem_reverse] at h1
  exact mem_of_mem_dropWhileWs h1

/-- Characters of a normalized org name are fixed by upper-casing. -/
theorem upperFixed_mem_normChars {l : List Char} :
    ∀ x ∈ normChars l, UpperFixed x := by
  intro x hx
  rw [normChars, collapseWs] at hx
  rcases mem_joinSpace _ x hx with ⟨p, hp, hxp⟩ | rfl
  · rcases mem_pySplitAcc _ [] p x hp hxp with hw | h0
    · rcases mem_foldl_pyReplace _ _ x hw with hs | ⟨pr, hpr, hrep⟩
      · have := mem_pyStrip hs
        rcases List.mem_map.mp this with ⟨y, _, rfl⟩
        exact upperFixed_pyToUpper y
      · have hfix : ∀ pr ∈ replacementTable, ∀ x ∈ pr.2, pyToUpper x = x := by decide
        exact hfix pr hpr x hrep
    · cases h0
  · exact (by decide : pyToUpper ' ' = ' ')

/-- A normalized org name contains neither `.` nor `,`. -/
theorem dot_comma_not_mem_normChars {l : List Char} :
    '.' ∉ normChars l ∧ ',' ∉ normChars l := by
  have key : ∀ x ∈ applyReplacements (pyStrip (l.map pyToUpper)), x ≠ '.' ∧ x ≠ ',' := by
    intro x hx
    rw [applyReplacements, replacementTable] at hx
    simp only [List.foldl_cons, List.foldl_nil] at hx
    rw [pyReplace_single_del, pyReplace_single_del] at hx
    rcases List.mem_filter.mp hx with ⟨hx2, hdot⟩
    rcases List.mem_filter.mp hx2 with ⟨_, hcomma⟩
    exact ⟨by simpa using hdot, by simpa using hcomma⟩
  constructor <;>
  · intro hx
    rw [normChars, collapseWs] at hx
    rcases mem_joinSpace _ _ hx with ⟨p, hp, hxp⟩ | habs
    · rcases mem_pySplitAcc _ [] p _ hp hxp with hw | h0
      · have := key _ hw
        simp at this
      · cases h0
    · cases habs

theorem applyReplacements_eq_self {s : List Char}
    (hcomma : ',' ∉ s) (hdot : '.' ∉ s) : applyReplacements s = s := by
  rw [applyReplacements, replacementTable]
  simp only [List.foldl_cons, List.foldl_nil]
  rw [pyReplace_eq_self_of_absent (show '.' ∈ " INC.".toList by decide) hdot,
    pyReplace_eq_self_of_absent (show ',' ∈ " INC,".toList by decide) hcomma,
    pyReplace_eq_self_of_absent (show '.' ∈ " LLC.".toList by decide) hdot,
    pyReplace_eq_self_of_absent (show ',' ∈ " LLC,".toList by decide) hcomma,
    pyReplace_eq_self_of_absent (show '.' ∈ " P.C.".toList by decide) hdot,
    pyReplace_eq_self_of_absent (show ',' ∈ " P.C,".toList by decide) hcomma,
    pyReplace_eq_self_of_absent (show '.' ∈ " P.A.".toList by decide) hdot,
    pyReplace_eq_self_of_absent (show ',' ∈ " P.A,".toList by decide) hcomma,
    pyReplace_eq_self_of_absent (show '.' ∈ " L.L.C.".toList by decide) hdot,
    pyReplace_eq_self_of_absent (show '.' ∈ " L.L.C".toList by decide) hdot,
    pyReplace_eq_self_of_absent (show '.' ∈ " L.P.".toList by decide) hdot,
    pyReplace_eq_self_of_absent (show '.' ∈ " PLLC.".toList by decide) hdot,
    pyReplace_eq_self_of_absent (show ',' ∈ [','] by decide) hcomma,
    pyReplace_eq_self_of_absent (show '.' ∈ ['.'] by decide) hdot]

/-- `normChars` is idempotent. -/
theorem normChars_normChars (l : List Char) : normChars (normChars l) = normChars l := by
  have hparts : ∀ p ∈ pySplit (applyReplacements (pyStrip (l.map pyToUpper))),
      p ≠ [] ∧ ∀ c ∈ p, pyWs c = false :=
    pySplitAcc_props (applyReplacements (pyStrip (l.map pyToUpper))) [] (by simp)
  have hnorm : normChars l
      = joinSpace (pySplit (applyReplacements (pyStrip (l.map pyToUpper)))) := rfl
  have hmap : (normChars l).map pyToUpper = normChars l :=
    map_eq_self_of_fixed fun c hc => upperFixed_mem_normChars c hc
  have hstrip : pyStrip (normChars l) = normChars l := by
    refine pyStrip_eq_self ?_ ?_
    · intro c hc
      exact joinSpace_head_no_ws _ hparts c (hnorm ▸ hc)
    · intro c hc
      exact joinSpace_getLast_no_ws _ hparts c (hnorm ▸ hc)
  have habs := dot_comma_not_mem_normChars (l := l)
  have hrepl : applyReplacements (normChars l) = normChars l :=
    applyReplacements_eq_self habs.2 habs.1
  have hcollapse : collapseWs (normChars l) = normChars l := by
    rw [collapseWs, hnorm, pySplit_joinSpace _ hparts]
  show collapseWs (applyReplacements (pyStrip ((normChars l).map pyToUpper))) = normChars l
  rw [hmap, hstrip, hrepl, hcollapse]

/-- Claim C7 (main theorem): key normalization is idempotent and
deterministic: `normalize_org_name (normalize_org_name x) = normalize_org_name x`
for every input, missing values included. -/
theorem normalize_org_name_idempotent (x : Option String) :
    normalize_org_name (some (normalize_org_name x)) = normalize_org_name x := by
  cases x with
  | none => rfl
  | some s =>
    show (normChars ((normChars s.toList).asString.toList)).asString
        = (normChars s.toList).asString
    rw [List.toList_asString, normChars_normChars]

/-! ## Facility-key round trip -/

/-- No two adjacent characters form the substring `", "`. -/
def pairFreeCS : List Char → Bool
  | [] => true
  | [_] => true
  | x :: y :: r => (!(decide (x = ',') && decide (y = ' '))) && pairFreeCS (y :: r)

theorem pairFreeCS_tail {c : Char} {l : List Char} (h : pairFreeCS (c :: l) = true) :
    pairFreeCS l = true := by
  cases l with
  | nil => rfl
  | cons y r =>
    rw [pairFreeCS, Bool.and_eq_true] at h
    exact h.2

theorem pairFreeCS_of_not_comma {l : List Char} (h : ',' ∉ l) : pairFreeCS l = true := by
  induction l with
  | nil => rfl
  | cons x t ih =>
    cases t with
    | nil => rfl
    | cons y r =>
      rw [pairFreeCS, Bool.and_eq_true]
      refine ⟨?_, ih fun hy => h (List.mem_cons_of_mem x hy)⟩
      simp only [Bool.not_eq_true', Bool.and_eq_false_iff, decide_eq_false_iff_not]
      exact Or.inl fun hx => h (hx ▸ List.mem_cons_self x _)

theorem pairFreeCS_append_right {y t : List Char} (h : pairFreeCS (y ++ t) = true) :
    pairFreeCS y = true := by
  induction y with
  | nil => rfl
  | cons x y' ih =>
    cases y' with
    | nil => rfl
    | cons a b =>
      rw [List.cons_append, List.cons_append, pairFreeCS, Bool.and_eq_true] at h
      rw [pairFreeCS, Bool.and_eq_true]
      exact ⟨h.1, ih (by rw [List.cons_append]; exact h.2)⟩

theorem pairFreeCS_append_left {x y : List Char} (h : pairFreeCS (x ++ y) = true) :
    pairFreeCS y = true := by
  induction x with
  | nil => exact h
  | cons a x' ih =>
    rw [List.cons_append] at h
    exact ih (pairFreeCS_tail h)

theorem pairFreeCS_pyStrip {s : List Char} (h : pairFreeCS s = true) :
    pairFreeCS (pyStrip s) = true := by
  obtain ⟨t, ht⟩ := List.dropWhile_suffix (l := s) pyWs
  have hu : pairFreeCS (s.dropWhile pyWs) = true := pairFreeCS_append_left (ht ▸ h)
  obtain ⟨t2, ht2⟩ := List.dropWhile_suffix (l := (s.dropWhile pyWs).reverse) pyWs
  have hu2 : s.dropWhile pyWs = ((s.dropWhile pyWs).reverse.dropWhile pyWs).reverse
      ++ t2.reverse := by
    conv_lhs => rw [← List.reverse_reverse (s.dropWhile pyWs), ← ht2]
    rw [List.reverse_append]
  rw [hu2] at hu
  exact pairFreeCS_append_right hu

theorem pyToUpper_eq_low {c d : Char} (hd : d.toNat < 65) (h : pyToUpper c = d) : c = d := by
  rw [pyToUpper] at h
  by_cases hc : 97 ≤ c.toNat ∧ c.toNat ≤ 122
  · rw [if_pos hc] at h
    have := congrArg Char.toNat h
    rw [toNat_charOfNat (by omega)] at this
    omega
  · rwa [if_neg hc] at h

theorem pairFreeCS_map_pyToUpper {l : List Char} (h : pairFreeCS l = true) :
    pairFreeCS (l.map pyToUpper) = true := by
  induction l with
  | nil => rfl
  | cons x t ih =>
    cases t with
    | nil => rfl
    | cons y r =>
      rw [pairFreeCS, Bool.and_eq_true] at h
      rw [List.map_cons, List.map_cons, pairFreeCS, Bool.and_eq_true]
      constructor
      · simp only [Bool.not_eq_true', Bool.and_eq_false_iff, decide_eq_false_iff_not] at h ⊢
        rcases h.1 with h1 | h1
        · exact Or.inl fun hx => h1 (pyToUpper_eq_low (by decide) hx)
        · exact Or.inr fun hy => h1 (pyToUpper_eq_low (by decide) hy)
      · exact ih h.2

/-- Pushing a `", "`-free block through the comma-space splitter accumulates
it, provided what follows does not begin with a space. -/
theorem splitCSGo_append :
    ∀ (a : List Char), pairFreeCS a = true →
      ∀ (cur rest : List Char), rest.head? ≠ some ' ' →
        splitCSGo cur (a ++ rest) = splitCSGo (a.reverse ++ cur) rest := by
  intro a
  induction a with
  | nil => intro _ cur rest _; simp
  | cons x a' ih =>
    intro ha cur rest hrest
    cases a' with
    | nil =>
      cases rest with
      | nil => simp [splitCSGo]
      | cons r rs =>
        have hr : ¬(x = ',' ∧ r = ' ') := by
          rintro ⟨-, rfl⟩
          exact hrest rfl
        simp only [List.singleton_append, List.reverse_cons, List.reverse_nil, List.nil_append]
        rw [splitCSGo, if_neg hr]
    | cons y a'' =>
      have hpair : ¬(x = ',' ∧ y = ' ') := by
        rw [pairFreeCS, Bool.and_eq_true] at ha
        have h1 := ha.1
        simp only [Bool.not_eq_true', Bool.and_eq_false_iff, decide_eq_false_iff_not] at h1
        rintro ⟨rfl, rfl⟩
        rcases h1 with h | h <;> exact h rfl
      have htail : pairFreeCS (y :: a'') = true := pairFreeCS_tail ha
      rw [List.cons_append, List.cons_append, splitCSGo, if_neg hpair, ← List.cons_append,
        ih htail (x :: cur) rest hrest]
      simp [List.append_assoc]

/-- Splitting `a ++ ", " ++ b ++ ", " ++ c` recovers the three components when
`a` has no comma at all and `b`, `c` contain no `", "` substring. -/
theorem splitCommaSpace_three {a b c : List Char} (ha : ',' ∉ a)
    (hb : pairFreeCS b = true) (hc : pairFreeCS c = true) :
    splitCommaSpace (a ++ ',' :: ' ' :: (b ++ ',' :: ' ' :: c)) = [a, b, c] := by
  have hlast : splitCSGo [] c = [c] := by
    conv_lhs => rw [← List.append_nil c]
    rw [splitCSGo_append c hc [] [] (by simp)]
    simp [splitCSGo]
  rw [splitCommaSpace,
    splitCSGo_append a (pairFreeCS_of_not_comma ha) [] _ (by simp), splitCSGo,
    if_pos ⟨rfl, rfl⟩,
    splitCSGo_append b hb [] _ (by simp), splitCSGo, if_pos ⟨rfl, rfl⟩, hlast]
  simp

theorem toList_append (a b : String) : (a ++ b).toList = a.toList ++ b.toList :=
  String.data_append a b

/-- The characters of a raw optional string (a missing value has none). -/
def optChars : Option String → List Char
  | none => []
  | some s => s.toList

theorem comma_not_mem_normalize (org : Option String) :
    ',' ∉ (normalize_org_name org).toList := by
  cases org with
  | none => simp [normalize_org_name]
  | some s =>
    show ',' ∉ ((normChars s.toList).asString).toList
    rw [List.toList_asString]
    exact (dot_comma_not_mem_normChars).2

theorem pairFreeCS_upperStrip {x : Option String} (h : pairFreeCS (optChars x) = true) :
    pairFreeCS (upperStrip x).toList = true := by
  cases x with
  | none => rfl
  | some s =>
    show pairFreeCS ((pyStrip (s.toList.map pyToUpper)).asString).toList = true
    rw [List.toList_asString]
    exact pairFreeCS_pyStrip (pairFreeCS_map_pyToUpper h)

/-- Claim C9 (main theorem): a key produced by `create_facility_key`, split
from the right on `", "` into three parts, recovers exactly the normalized
org name, the uppercased trimmed city, and the uppercased trimmed state,
whenever the raw city and state contain no `", "` substring (the normalized
org name never contains a comma at all). -/
theorem create_facility_key_roundtrip (org city state : Option String) (k : String)
    (h1 : create_facility_key org city state = some k)
    (h2 : pairFreeCS (optChars city) = true)
    (h3 : pairFreeCS (optChars state) = true) :
    pyRSplit2 k.toList =
      [(normalize_org_name org).toList, (upperStrip city).toList, (upperStrip state).toList] := by
  rw [create_facility_key] at h1
  by_cases hcond : normalize_org_name org ≠ "" ∧ upperStrip city ≠ "" ∧ upperStrip state ≠ ""
  · rw [if_pos hcond, Option.some.injEq] at h1
    subst h1
    have hsplit : splitCommaSpace
        ((normalize_org_name org ++ ", " ++ upperStrip city ++ ", " ++ upperStrip state).toList)
        = [(normalize_org_name org).toList, (upperStrip city).toList,
            (upperStrip state).toList] := by
      have hshape :
          (normalize_org_name org ++ ", " ++ upperStrip city ++ ", " ++ upperStrip state).toList
          = (normalize_org_name org).toList ++ ',' :: ' ' ::
              ((upperStrip city).toList ++ ',' :: ' ' :: (upperStrip state).toList) := by
        simp only [toList_append, List.append_assoc]
        rfl
      rw [hshape]
      exact splitCommaSpace_three (comma_not_mem_normalize org)
        (pairFreeCS_upperStrip h2) (pairFreeCS_upperStrip h3)
    rw [pyRSplit2]
    simp only [hsplit]
    rfl
  · rw [if_neg hcond] at h1
    cases h1

/-! ## Matcher tier ordering (claim C2) -/

/-- Claim C2 (main theorem): the matcher's tiers short-circuit.  Whenever the
normalized exact key exists in the format table, `match_facility` returns the
exact-tier result with score 1.0 and match type `exact` — for every
threshold and every similarity function, so no similarity candidate, however
high its score, can displace the exact match. -/
theorem match_facility_exact_first (fmts : List (String × FormatInfo)) (threshold : ℚ)
    (sim : String → String → ℚ) (org city state : Option String) (k : String) (v : FormatInfo)
    (h1 : create_facility_key org city state = some k)
    (h2 : lookupAssoc fmts k = some v) :
    match_facility fmts threshold sim org city state = some ⟨k, "exact", 1, v⟩ := by
  rw [match_facility, h1]
  simp only [h2]

/-- Witness for C2 at a concrete table and record: the city/state bucket also
holds a similarity candidate that scores 1.0 under `sim`, yet the exact tier
wins. -/
theorem match_facility_exact_first_witness :
    match_facility
      [("ACME HEALTH, SPRINGFIELD, IL", ⟨"[first].[last]", "acme.com"⟩),
       ("MERCY CLINIC, SPRINGFIELD, IL", ⟨"[first]", "mercy.org"⟩)]
      (85/100) (fun _ _ => 1)
      (some "Acme Health") (some "Springfield") (some "IL")
      = some ⟨"ACME HEALTH, SPRINGFIELD, IL", "exact", 1, ⟨"[first].[last]", "acme.com"⟩⟩ :=
  match_facility_exact_first _ _ _ _ _ _ _ _ (by decide) (by decide)

/-- Witness for C9 at a concrete record with messy spacing, suffix
punctuation, and an internal comma in the org name. -/
theorem create_facility_key_roundtrip_witness :
    pyRSplit2 ("ACME HEALTH INC, SPRINGFIELD, IL".toList) =
      [(normalize_org_name (some "Acme Health, Inc.")).toList,
       (upperStrip (some " Springfield ")).toList,
       (upperStrip (some "il")).toList] :=
  create_facility_key_roundtrip (some "Acme Health, Inc.") (some " Springfield ") (some "il")
    "ACME HEALTH INC, SPRINGFIELD, IL" (by decide) (by decide) (by decide)

/-! ## Email generation (claim C8) -/

/-- Claim C8 (main theorem): `generate_email` cleans each name by
lower-casing and stripping every non-alphabetic character, fails closed with
`None` whenever either cleaned name is empty or the template tag is outside
the recognized enumeration, and in particular renders
`("Mary-Jane", "O'Brien", "[first].[last]", "acme.com")` as
`maryjane.obrien@acme.com`. -/
theorem generate_email_fail_closed (first_name last_name : Option String)
    (email_format domain : String)
    (h : cleanedName first_name = "" ∨ cleanedName last_name = ""
        ∨ email_format ∉ recognizedFormats) :
    generate_email first_name last_name email_format domain = none ∧
    generate_email (some "Mary-Jane") (some ("O" ++ (Char.ofNat 39).toString ++ "Brien"))
        "[first].[last]" "acme.com" = some "maryjane.obrien@acme.com" := by
  refine ⟨?_, by decide⟩
  match first_name, last_name with
  | none, _ => rfl
  | some f, none => rfl
  | some f, some l =>
    rw [generate_email]
    by_cases hf : f = "" ∨ l = ""
    · rw [if_pos hf]
    · rw [if_neg hf]
      by_cases hcl : (cleanChars f).isEmpty ∨ (cleanChars l).isEmpty
      · rw [if_pos hcl]
      · rw [if_neg hcl]
        push_neg at hf hcl
        rcases h with h | h | h
        · have h' : ((cleanChars f).asString).toList = "".toList := by
            rw [show cleanedName (some f) = (cleanChars f).asString from rfl] at h
            rw [h]
          rw [List.toList_asString] at h'
          exact absurd (by simpa using h') (by simpa [List.isEmpty_iff] using hcl.1)
        · have h' : ((cleanChars l).asString).toList = "".toList := by
            rw [show cleanedName (some l) = (cleanChars l).asString from rfl] at h
            rw [h]
          rw [List.toList_asString] at h'
          exact absurd (by simpa using h') (by simpa [List.isEmpty_iff] using hcl.2)
        · simp only [recognizedFormats, List.mem_cons, List.not_mem_nil, or_false,
            not_or] at h
          rw [if_neg h.1, if_neg h.2.1, if_neg h.2.2.1, if_neg h.2.2.2.1,
            if_neg h.2.2.2.2.1, if_neg h.2.2.2.2.2.1, if_neg h.2.2.2.2.2.2.1,
            if_neg h.2.2.2.2.2.2.2]

/-- Witness for C8: a last name consisting only of digits cleans to the empty
string, so generation fails closed; the Mary-Jane example still renders. -/
theorem generate_email_fail_closed_witness :
    generate_email (some "John") (some "123") "[first].[last]" "acme.com" = none ∧
    generate_email (some "Mary-Jane") (some ("O" ++ (Char.ofNat 39).toString ++ "Brien"))
        "[first].[last]" "acme.com" = some "maryjane.obrien@acme.com" :=
  generate_email_fail_closed (some "John") (some "123") "[first].[last]" "acme.com"
    (Or.inr (Or.inl (by decide)))

/-! ## Per-record stage gating (claim C10) -/

/-- Claim C10 (main theorem): per-record annotation is all-or-nothing by
stage.  If matching yields nothing, all six match/email fields stay null
(only `facility_key` may be set); if matching succeeds (which in the record
flow requires a facility key) but email generation fails, the three match
fields are set and the three email fields stay null. -/
theorem process_single_record_stage_gating (fmts : List (String × FormatInfo))
    (threshold : ℚ) (sim : String → String → ℚ) (row : AdminRow) :
    (match_facility fmts threshold sim row.org row.city row.state = none →
      (process_single_record fmts threshold sim row).matched_facility = none ∧
      (process_single_record fmts threshold sim row).match_type = none ∧
      (process_single_record fmts threshold sim row).match_score = none ∧
      (process_single_record fmts threshold sim row).generated_email = none ∧
      (process_single_record fmts threshold sim row).email_format_used = none ∧
      (process_single_record fmts threshold sim row).email_domain = none) ∧
    (∀ (k : String) (m : MatchResult),
      create_facility_key row.org row.city row.state = some k →
      match_facility fmts threshold sim row.org row.city row.state = some m →
      generate_email row.firstName row.lastName m.format_info.format m.format_info.domain
        = none →
      (process_single_record fmts threshold sim row).matched_facility = some m.matched_key ∧
      (process_single_record fmts threshold sim row).match_type = some m.match_type ∧
      (process_single_record fmts threshold sim row).match_score = some m.match_score ∧
      (process_single_record fmts threshold sim row).generated_email = none ∧
      (process_single_record fmts threshold sim row).email_format_used = none ∧
      (process_single_record fmts threshold sim row).email_domain = none) := by
  constructor
  · intro hm
    cases hk : create_facility_key row.org row.city row.state <;>
      simp [process_single_record, hk, hm]
  · intro k m hk hm hg
    simp [process_single_record, hk, hm, hg]

/-- Witness for C10: an unmatched record keeps every field null, and a
matched record whose digits-only officer name defeats generation keeps the
email fields null while the match fields are set. -/
theorem process_single_record_stage_gating_witness :
    ((process_single_record [] (85/100) (fun _ _ => 0)
        ⟨some "Acme Health", some "Springfield", some "IL", some "Jane", some "Doe"⟩
      ).matched_facility = none ∧
     (process_single_record [] (85/100) (fun _ _ => 0)
        ⟨some "Acme Health", some "Springfield", some "IL", some "Jane", some "Doe"⟩
      ).match_type = none ∧
     (process_single_record [] (85/100) (fun _ _ => 0)
        ⟨some "Acme Health", some "Springfield", some "IL", some "Jane", some "Doe"⟩
      ).match_score = none ∧
     (process_single_record [] (85/100) (fun _ _ => 0)
        ⟨some "Acme Health", some "Springfield", some "IL", some "Jane", some "Doe"⟩
      ).generated_email = none ∧
     (process_single_record [] (85/100) (fun _ _ => 0)
        ⟨some "Acme Health", some "Springfield", some "IL", some "Jane", some "Doe"⟩
      ).email_format_used = none ∧
     (process_single_record [] (85/100) (fun _ _ => 0)
        ⟨some "Acme Health", some "Springfield", some "IL", some "Jane", some "Doe"⟩
      ).email_domain = none) ∧
    ((process_single_record [("ACME HEALTH, SPRINGFIELD, IL", ⟨"[first].[last]", "acme.com"⟩)]
        (85/100) (fun _ _ => 0)
        ⟨some "Acme Health", some "Springfield", some "IL", some "Jane", some "123"⟩
      ).matched_facility = some "ACME HEALTH, SPRINGFIELD, IL" ∧
     (process_single_record [("ACME HEALTH, SPRINGFIELD, IL", ⟨"[first].[last]", "acme.com"⟩)]
        (85/100) (fun _ _ => 0)
        ⟨some "Acme Health", some "Springfield", some "IL", some "Jane", some "123"⟩
      ).match_type = some "exact" ∧
     (process_single_record [("ACME HEALTH, SPRINGFIELD, IL", ⟨"[first].[last]", "acme.com"⟩)]
        (85/100) (fun _ _ => 0)
        ⟨some "Acme Health", some "Springfield", some "IL", some "Jane", some "123"⟩
      ).match_score = some 1 ∧
     (process_single_record [("ACME HEALTH, SPRINGFIELD, IL", ⟨"[first].[last]", "acme.com"⟩)]
        (85/100) (fun _ _ => 0)
        ⟨some "Acme Health", some "Springfield", some "IL", some "Jane", some "123"⟩
      ).generated_email = none ∧
     (process_single_record [("ACME HEALTH, SPRINGFIELD, IL", ⟨"[first].[last]", "acme.com"⟩)]
        (85/100) (fun _ _ => 0)
        ⟨some "Acme Health", some "Springfield", some "IL", some "Jane", some "123"⟩
      ).email_format_used = none ∧
     (process_single_record [("ACME HEALTH, SPRINGFIELD, IL", ⟨"[first].[last]", "acme.com"⟩)]
        (85/100) (fun _ _ => 0)
        ⟨some "Acme Health", some "Springfield", some "IL", some "Jane", some "123"⟩
      ).email_domain = none) :=
  ⟨(process_single_record_stage_gating [] (85/100) (fun _ _ => 0)
      ⟨some "Acme Health", some "Springfield", some "IL", some "Jane", some "Doe"⟩).1
      (by decide),
   (process_single_record_stage_gating
      [("ACME HEALTH, SPRINGFIELD, IL", ⟨"[first].[last]", "acme.com"⟩)] (85/100)
      (fun _ _ => 0)
      ⟨some "Acme Health", some "Springfield", some "IL", some "Jane", some "123"⟩).2
      "ACME HEALTH, SPRINGFIELD, IL"
      ⟨"ACME HEALTH, SPRINGFIELD, IL", "exact", 1, ⟨"[first].[last]", "acme.com"⟩⟩
      (by decide) (by decide) (by decide)⟩

/-! ## Extractor group gating (claims C1, C4, C5) -/

/-- Claim C1 (amended, main theorem): only the fallback group is gated.
Groups 1-3 always run and their candidates are concatenated in group order,
so whenever the bracket group matches, the returned list starts with the
bracket-derived candidates and no fallback candidate is ever included —
but candidates of groups 2 and 3 may follow in the same list. -/
theorem extract_bracket_gating (text link : String)
    (h : bracketFormats text link ≠ []) :
    extract_formats_from_text_improved text link
      = bracketFormats text link ++ numberedFormats text link ++ leadiqFormats text link ∧
    (extract_formats_from_text_improved text link).head?
      = (bracketFormats text link).head? := by
  have hg : groups123 text link
      = bracketFormats text link ++ numberedFormats text link ++ leadiqFormats text link := rfl
  have hne : (groups123 text link).isEmpty = false := by
    rw [hg]
    cases hb : bracketFormats text link with
    | nil => exact absurd hb h
    | cons a t => rfl
  have hmain : extract_formats_from_text_improved text link
      = bracketFormats text link ++ numberedFormats text link ++ leadiqFormats text link := by
    rw [extract_formats_from_text_improved]
    simp only [hne, Bool.false_eq_true, if_false]
    exact hg
  refine ⟨hmain, ?_⟩
  rw [hmain, List.append_assoc, List.head?_append]
  cases hb : bracketFormats text link with
  | nil => exact absurd hb h
  | cons a t => rfl

/-- Witness for C1 (amended) at a concrete bracket-only snippet. -/
theorem extract_bracket_gating_witness :
    extract_formats_from_text_improved "[first]_[last] (ex. jane_doe@acme.com)" ""
      = bracketFormats "[first]_[last] (ex. jane_doe@acme.com)" ""
        ++ numberedFormats "[first]_[last] (ex. jane_doe@acme.com)" ""
        ++ leadiqFormats "[first]_[last] (ex. jane_doe@acme.com)" "" ∧
    (extract_formats_from_text_improved "[first]_[last] (ex. jane_doe@acme.com)" "").head?
      = (bracketFormats "[first]_[last] (ex. jane_doe@acme.com)" "").head? :=
  extract_bracket_gating "[first]_[last] (ex. jane_doe@acme.com)" "" (by decide)

/-- Counterexample to C1 as stated: on a snippet holding both a bracket
mention and a numbered rank-1 mention, the bracket group matches, yet the
returned list also contains the numbered group's candidate — the extractor
does not return at the first group that matches, and it mixes groups. -/
theorem extract_mixes_groups_counterexample :
    bracketFormats "[first].[last] (ex. jane.doe@acme.com) 1. jdoe@acme.com (80%)" ""
      = [⟨"[first].[last]", "acme.com", "jane.doe@acme.com", "", "high"⟩] ∧
    extract_formats_from_text_improved
        "[first].[last] (ex. jane.doe@acme.com) 1. jdoe@acme.com (80%)" ""
      = [⟨"[first].[last]", "acme.com", "jane.doe@acme.com", "", "high"⟩,
         ⟨"[first_initial][last]", "acme.com", "jdoe@acme.com", "", "high"⟩] :=
  ⟨rfl, rfl⟩

/-- Claim C4 (amended, main theorem): the numbered group yields at most one
candidate; its five patterns are tried dotted-first and the first matching
pattern wins (a dotted match preempts all later patterns); and the spec's
example text yields exactly the rank-1 `[first_initial][last]` format.
However, each pattern scans the whole text for the substring `"1. "`, which
may also occur inside a larger rank number such as `"21. "` (see the
counterexample), so "only the rank-1 entry" holds only for rank labels that
do not embed `"1. "`. -/
theorem numbered_first_pattern_wins :
    (∀ text link, (numberedFormats text link).length ≤ 1) ∧
    (∀ (text link : String) g, searchPos (numSepAttempt '.') text.toList = some g →
      numberedCand text link = some (mkNumSepCand "[first].[last]" '.' link g)) ∧
    extract_formats_from_text_improved "1. jdoe@acme.com (80%)\n2. jane.doe@acme.com (20%)" ""
      = [⟨"[first_initial][last]", "acme.com", "jdoe@acme.com", "", "high"⟩] := by
  refine ⟨?_, ?_, rfl⟩
  · intro text link
    rw [numberedFormats]
    cases numberedCand text link <;> simp
  · intro text link g hg
    rw [numberedCand]
    simp only [hg]

/-- Witness for C4 (amended): a dotted rank-1 mention resolves through the
first numbered pattern. -/
theorem numbered_first_pattern_wins_witness :
    numberedCand "1. ada.lace@ex.org (50%)" ""
      = some (mkNumSepCand "[first].[last]" '.' ""
          (⟨"ada".toList, "lace".toList, "ex.org".toList⟩)) :=
  numbered_first_pattern_wins.2.1 "1. ada.lace@ex.org (50%)" ""
    (⟨"ada".toList, "lace".toList, "ex.org".toList⟩) rfl

/-- Counterexample to C4 as stated: with a rank-1 `jdoe@acme.com` entry and a
rank-21 dotted entry, the dotted pattern (tried first) matches the `"1. "`
embedded in `"21. "`, so the extractor returns the rank-21 `[first].[last]`
format instead of the rank-1 `[first_initial][last]` format. -/
theorem numbered_rank_counterexample :
    extract_formats_from_text_improved
        "1. jdoe@acme.com (80%)\n21. jane.doe@acme.com (20%)" ""
      = [⟨"[first].[last]", "acme.com", "jane.doe@acme.com", "", "high"⟩] := rfl

/-! ## Fallback group behaviour (claim C5) -/

theorem firstInfer_length (link : String) :
    ∀ ms : List EmailTok, (firstInfer link ms).length ≤ 1 := by
  intro ms
  induction ms with
  | nil => simp [firstInfer]
  | cons m ms ih =>
    rw [firstInfer]
    cases infer_format_from_local_part ((m.localPart.map pyToLower).asString) with
    | some fmt => simp
    | none => simpa using ih

theorem firstInfer_confidence (link : String) :
    ∀ (ms : List EmailTok) (c : Candidate), c ∈ firstInfer link ms →
      c.confidence = "medium" := by
  intro ms
  induction ms with
  | nil => intro c hc; cases hc
  | cons m ms ih =>
    intro c hc
    rw [firstInfer] at hc
    cases hinf : infer_format_from_local_part ((m.localPart.map pyToLower).asString) with
    | some fmt =>
      rw [hinf] at hc
      rcases List.mem_singleton.mp hc with rfl
      rfl
    | none =>
      rw [hinf] at hc
      exact ih c hc

/-- The single fallback candidate comes from the first email token whose
lower-cased local part is inferable; all earlier tokens infer to nothing. -/
theorem firstInfer_decomposition (link : String) :
    ∀ (ms : List EmailTok) (c : Candidate), firstInfer link ms = [c] →
      ∃ pre m post, ms = pre ++ m :: post ∧
        (∀ m' ∈ pre,
          infer_format_from_local_part ((m'.localPart.map pyToLower).asString) = none) ∧
        infer_format_from_local_part ((m.localPart.map pyToLower).asString) = some c.format ∧
        c.example_email = ((m.localPart.map pyToLower).asString) ++ "@"
            ++ ((m.domainPart.map pyToLower).asString) ∧
        c.domain = (m.domainPart.map pyToLower).asString := by
  intro ms
  induction ms with
  | nil => intro c hc; cases hc
  | cons m ms ih =>
    intro c hc
    rw [firstInfer] at hc
    cases hinf : infer_format_from_local_part ((m.localPart.map pyToLower).asString) with
    | some fmt =>
      rw [hinf] at hc
      injection hc with h1 h2
      subst h1
      exact ⟨[], m, ms, rfl, by simp, by rw [hinf], rfl, rfl⟩
    | none =>
      rw [hinf] at hc
      obtain ⟨pre, m', post, hms, hpre, hm', hex, hdom⟩ := ih c hc
      refine ⟨m :: pre, m', post, by rw [hms]; rfl, ?_, hm', hex, hdom⟩
      intro x hx
      rcases List.mem_cons.mp hx with rfl | hx2
      · exact hinf
      · exact hpre x hx2

/-- Claim C5 (amended, main theorem): the fallback group runs only when
groups 1-3 produced nothing; it yields at most one candidate, always with
confidence `medium`, derived from the first email token whose local part
yields an inferable format (tokens whose local parts infer to nothing are
skipped). -/
theorem fallback_gating (text link : String) (h : groups123 text link = []) :
    extract_formats_from_text_improved text link
      = firstInfer link (emailMatches text.toList) ∧
    (extract_formats_from_text_improved text link).length ≤ 1 ∧
    (∀ c ∈ extract_formats_from_text_improved text link, c.confidence = "medium") ∧
    (∀ c, extract_formats_from_text_improved text link = [c] →
      ∃ pre m post, emailMatches text.toList = pre ++ m :: post ∧
        (∀ m' ∈ pre,
          infer_format_from_local_part ((m'.localPart.map pyToLower).asString) = none) ∧
        infer_format_from_local_part ((m.localPart.map pyToLower).asString) = some c.format ∧
        c.example_email = ((m.localPart.map pyToLower).asString) ++ "@"
            ++ ((m.domainPart.map pyToLower).asString) ∧
        c.domain = (m.domainPart.map pyToLower).asString) := by
  have hmain : extract_formats_from_text_improved text link
      = firstInfer link (emailMatches text.toList) := by
    rw [extract_formats_from_text_improved]
    simp only [h, List.isEmpty_nil, if_true]
    rfl
  refine ⟨hmain, ?_, ?_, ?_⟩
  · rw [hmain]; exact firstInfer_length link _
  · rw [hmain]; exact firstInfer_confidence link _
  · intro c hc
    rw [hmain] at hc
    exact firstInfer_decomposition link _ c hc

/-- Witness for C5 (amended) at the mixed-tokens snippet. -/
theorem fallback_gating_witness :
    extract_formats_from_text_improved "Contact: ab@x.com or jane.doe@y.com" ""
      = firstInfer "" (emailMatches "Contact: ab@x.com or jane.doe@y.com".toList) ∧
    (extract_formats_from_text_improved "Contact: ab@x.com or jane.doe@y.com" "").length ≤ 1 :=
  ⟨(fallback_gating "Contact: ab@x.com or jane.doe@y.com" "" rfl).1,
   (fallback_gating "Contact: ab@x.com or jane.doe@y.com" "" rfl).2.1⟩

/-- Counterexample to C5 as stated: groups 1-3 are empty, the textually
first email token is `ab@x.com`, yet the returned fallback candidate is
derived from the second token `jane.doe@y.com`, because `ab` has no
inferable format and is skipped. -/
theorem fallback_first_token_counterexample :
    groups123 "Contact: ab@x.com or jane.doe@y.com" "" = [] ∧
    (emailMatches "Contact: ab@x.com or jane.doe@y.com".toList).head?
      = some ⟨"ab".toList, "x.com".toList⟩ ∧
    extract_formats_from_text_improved "Contact: ab@x.com or jane.doe@y.com" ""
      = [⟨"[first].[last]", "y.com", "jane.doe@y.com", "", "medium"⟩] :=
  ⟨rfl, rfl, rfl⟩

/-! ## Similarity tier threshold behaviour (claim C6) -/

theorem argmaxGo_spec :
    ∀ (xs pre : List ℚ) (bi : Nat) (bv : ℚ),
      bi < pre.length → pre.getD bi 0 = bv → (∀ q ∈ pre, q ≤ bv) →
      argmaxGo xs bi bv pre.length < (pre ++ xs).length ∧
      ∀ q ∈ pre ++ xs, q ≤ (pre ++ xs).getD (argmaxGo xs bi bv pre.length) 0 := by
  intro xs
  induction xs with
  | nil =>
    intro pre bi bv hbi hval hmax
    rw [argmaxGo]
    constructor
    · simpa using hbi
    · intro q hq
      rw [List.append_nil] at hq ⊢
      rw [hval]
      exact hmax q hq
  | cons x xs ih =>
    intro pre bi bv hbi hval hmax
    rw [argmaxGo]
    by_cases hlt : bv < x
    · rw [if_pos hlt]
      have h1 : pre.length < (pre ++ [x]).length := by simp
      have h2 : (pre ++ [x]).getD pre.length 0 = x := by
        rw [List.getD_append_right _ _ _ _ le_rfl]
        simp
      have h3 : ∀ q ∈ pre ++ [x], q ≤ x := by
        intro q hq
        rcases List.mem_append.mp hq with h | h
        · exact le_of_lt (lt_of_le_of_lt (hmax q h) hlt)
        · rcases List.mem_singleton.mp h with rfl
          exact le_rfl
      have := ih (pre ++ [x]) pre.length x h1 h2 h3
      rwa [List.append_assoc, List.singleton_append, List.length_append,
        List.length_singleton] at this
    · rw [if_neg hlt]
      have h2 : (pre ++ [x]).getD bi 0 = bv := by
        rw [List.getD_append _ _ _ _ hbi]
        exact hval
      have h3 : ∀ q ∈ pre ++ [x], q ≤ bv := by
        intro q hq
        rcases List.mem_append.mp hq with h | h
        · exact hmax q h
        · rcases List.mem_singleton.mp h with rfl
          exact le_of_not_lt hlt
      have := ih (pre ++ [x]) bi bv (by simp; omega) h2 h3
      rwa [List.append_assoc, List.singleton_append, List.length_append,
        List.length_singleton] at this

theorem argmaxFirst_spec (l : List ℚ) (h : l ≠ []) :
    argmaxFirst l < l.length ∧ ∀ q ∈ l, q ≤ l.getD (argmaxFirst l) 0 := by
  cases l with
  | nil => exact absurd rfl h
  | cons x xs =>
    rw [argmaxFirst]
    have := argmaxGo_spec xs [x] 0 x (by simp) (by simp) (by simp)
    simpa using this

theorem lookupAssoc_isSome_of_mem_keys {α : Type} :
    ∀ (l : List (String × α)) (k : String), k ∈ l.map Prod.fst →
      ∃ v, lookupAssoc l k = some v := by
  intro l
  induction l with
  | nil => intro k hk; simp at hk
  | cons kv r ih =>
    intro k hk
    rw [lookupAssoc]
    by_cases he : kv.1 = k
    · exact ⟨kv.2, by rw [if_pos he]⟩
    · rw [List.map_cons, List.mem_cons] at hk
      rcases hk with hk | hk
      · exact absurd hk.symm he
      · rw [if_neg he]
        exact ih k hk

theorem mem_addToBuckets :
    ∀ (bks : List (String × List BucketEntry)) (loc : String) (be : BucketEntry)
      (q : String) (cands : List BucketEntry) (c : BucketEntry),
      lookupAssoc (addToBuckets loc be bks) q = some cands → c ∈ cands →
      (∃ cands₀, lookupAssoc bks q = some cands₀ ∧ c ∈ cands₀) ∨ c = be := by
  intro bks
  induction bks with
  | nil =>
    intro loc be q cands c hl hc
    rw [addToBuckets, lookupAssoc] at hl
    by_cases he : loc = q
    · rw [if_pos he, Option.some.injEq] at hl
      subst hl
      exact Or.inr (List.mem_singleton.mp hc)
    · rw [if_neg he] at hl
      cases hl
  | cons le rest ih =>
    intro loc be q cands c hl hc
    rw [show addToBuckets loc be (le :: rest)
        = if le.1 = loc then (le.1, le.2 ++ [be]) :: rest
          else (le.1, le.2) :: addToBuckets loc be rest from by
      rw [show le = (le.1, le.2) from rfl, addToBuckets]] at hl
    by_cases hel : le.1 = loc
    · rw [if_pos hel, lookupAssoc] at hl
      by_cases heq : le.1 = q
      · rw [if_pos heq, Option.some.injEq] at hl
        subst hl
        rcases List.mem_append.mp hc with h | h
        · exact Or.inl ⟨le.2, by rw [lookupAssoc, if_pos heq], h⟩
        · exact Or.inr (List.mem_singleton.mp h)
      · rw [if_neg heq] at hl
        exact Or.inl (by
          rcases (show (∃ cands₀, lookupAssoc rest q = some cands₀ ∧ c ∈ cands₀)
              from ⟨cands, hl, hc⟩) with ⟨c0, hc0, hcc⟩
          exact ⟨c0, by rw [lookupAssoc, if_neg heq]; exact hc0, hcc⟩)
    · rw [if_neg hel, lookupAssoc] at hl
      by_cases heq : le.1 = q
      · rw [if_pos heq, Option.some.injEq] at hl
        exact Or.inl ⟨le.2, by rw [lookupAssoc, if_pos heq], by rw [hl]; exact hc⟩
      · rw [if_neg heq] at hl
        rcases ih loc be q cands c hl hc with ⟨c0, hc0, hcc⟩ | h
        · exact Or.inl ⟨c0, by rw [lookupAssoc, if_neg heq]; exact hc0, hcc⟩
        · exact Or.inr h

theorem facilities_by_location_keys (fmts : List (String × FormatInfo)) :
    ∀ (loc : String) (cands : List BucketEntry) (c : BucketEntry),
      lookupAssoc (facilities_by_location fmts) loc = some cands → c ∈ cands →
      c.key ∈ fmts.map Prod.fst := by
  have general :
      ∀ (l : List (String × FormatInfo)) (acc : List (String × List BucketEntry))
        (S : String → Prop),
        (∀ loc cands c, lookupAssoc acc loc = some cands → c ∈ cands → S c.key) →
        (∀ kv ∈ l, S kv.1) →
        ∀ loc cands c,
          lookupAssoc
            (l.foldl
              (fun bks kv =>
                match pyRSplit2 kv.1.toList with
                | [o, cc, s] => addToBuckets ((cc ++ ',' :: ' ' :: s).asString) ⟨kv.1, o.asString⟩ bks
                | _ => bks)
              acc) loc = some cands → c ∈ cands → S c.key := by
    intro l
    induction l with
    | nil => intro acc S hacc _ loc cands c hl hc; exact hacc loc cands c hl hc
    | cons kv l ih =>
      intro acc S hacc hall loc cands c hl hc
      rw [List.foldl_cons] at hl
      refine ih _ S ?_ (fun kv' h => hall kv' (List.mem_cons_of_mem kv h)) loc cands c hl hc
      intro loc' cands' c' hl' hc'
      cases hsp : pyRSplit2 kv.1.toList with
      | nil => rw [hsp] at hl'; exact hacc loc' cands' c' hl' hc'
      | cons p0 ps =>
        match ps with
        | [] => rw [hsp] at hl'; exact hacc loc' cands' c' hl' hc'
        | [p1] => rw [hsp] at hl'; exact hacc loc' cands' c' hl' hc'
        | [p1, p2] =>
          rw [hsp] at hl'
          rcases mem_addToBuckets acc _ _ loc' cands' c' hl' hc' with ⟨c0, hc0, hcc⟩ | h
          · exact hacc loc' c0 c' hc0 hcc
          · rw [h]
            exact hall kv (by simp)
        | p1 :: p2 :: p3 :: ps' => rw [hsp] at hl'; exact hacc loc' cands' c' hl' hc'
  intro loc cands c hl hc
  exact general fmts [] (fun k => k ∈ fmts.map Prod.fst)
    (fun loc cands c h => by cases h)
    (fun kv h => List.mem_map.mpr ⟨kv, h, rfl⟩) loc cands c hl hc

/-- Claim C6 (main theorem): when the exact and fuzzy-exact tiers fail and
the city/state bucket is non-empty, the matcher scores every candidate,
takes a maximum-scoring one, and accepts it exactly when its score reaches
the threshold: a score `≥ threshold` (equality included) returns a `tfidf`
match carrying the actual score, and a score strictly below returns `None`. -/
theorem match_facility_similarity_threshold (fmts : List (String × FormatInfo))
    (threshold : ℚ) (sim : String → String → ℚ) (org city state : Option String)
    (cands : List BucketEntry)
    (h1 : ∀ k, create_facility_key org city state = some k → lookupAssoc fmts k = none)
    (h2 : lookupAssoc (facilities_by_location fmts)
        (locComponent city ++ ", " ++ locComponent state) = some cands)
    (h3 : cands ≠ [])
    (h4 : ∀ c ∈ cands, c.org_name ≠ normalize_org_name org) :
    (∀ q ∈ cands.map fun c => sim (normalize_org_name org) c.org_name,
      q ≤ (cands.map fun c => sim (normalize_org_name org) c.org_name).getD
        (argmaxFirst (cands.map fun c => sim (normalize_org_name org) c.org_name)) 0) ∧
    (threshold ≤ (cands.map fun c => sim (normalize_org_name org) c.org_name).getD
        (argmaxFirst (cands.map fun c => sim (normalize_org_name org) c.org_name)) 0 →
      ∃ v, match_facility fmts threshold sim org city state
        = some ⟨(cands.getD
            (argmaxFirst (cands.map fun c => sim (normalize_org_name org) c.org_name))
            default).key,
          "tfidf",
          (cands.map fun c => sim (normalize_org_name org) c.org_name).getD
            (argmaxFirst (cands.map fun c => sim (normalize_org_name org) c.org_name)) 0,
          v⟩) ∧
    ((cands.map fun c => sim (normalize_org_name org) c.org_name).getD
        (argmaxFirst (cands.map fun c => sim (normalize_org_name org) c.org_name)) 0
        < threshold →
      match_facility fmts threshold sim org city state = none) := by
  have hsims : (cands.map fun c => sim (normalize_org_name org) c.org_name) ≠ [] := by
    simpa using h3
  obtain ⟨hbi, hmax⟩ := argmaxFirst_spec _ hsims
  have htiers : match_facility fmts threshold sim org city state
      = matchTiers23 fmts threshold sim org city state := by
    rw [match_facility]
    cases hk : create_facility_key org city state with
    | none => rfl
    | some k => simp only [h1 k hk]
  have hfind : cands.find? (fun c => c.org_name = normalize_org_name org) = none :=
    List.find?_eq_none.mpr fun c hc => by simpa using h4 c hc
  have htier3 : matchTiers23 fmts threshold sim org city state
      = (if threshold ≤ (cands.map fun c => sim (normalize_org_name org) c.org_name).getD
            (argmaxFirst (cands.map fun c => sim (normalize_org_name org) c.org_name)) 0
        then
          (lookupAssoc fmts (cands.getD
              (argmaxFirst (cands.map fun c => sim (normalize_org_name org) c.org_name))
              default).key).map fun v =>
            ⟨(cands.getD
                (argmaxFirst (cands.map fun c => sim (normalize_org_name org) c.org_name))
                default).key, "tfidf",
              (cands.map fun c => sim (normalize_org_name org) c.org_name).getD
                (argmaxFirst (cands.map fun c => sim (normalize_org_name org) c.org_name)) 0,
              v⟩
        else none) := by
    rw [matchTiers23, h2]
    simp only [hfind]
    rw [if_neg (by simpa [List.isEmpty_iff] using h3)]
  refine ⟨hmax, ?_, ?_⟩
  · intro hth
    have hmem : cands.getD
        (argmaxFirst (cands.map fun c => sim (normalize_org_name org) c.org_name))
        default ∈ cands := by
      rw [List.getD_eq_getElem _ _ (by simpa using hbi)]
      exact List.getElem_mem _
    obtain ⟨v, hv⟩ := lookupAssoc_isSome_of_mem_keys fmts _
      (facilities_by_location_keys fmts _ cands _ h2 hmem)
    refine ⟨v, ?_⟩
    rw [htiers, htier3, if_pos hth, hv]
    rfl
  · intro hth
    rw [htiers, htier3, if_neg (not_le.mpr hth)]

/-- Witness for C6: a similarity score exactly at the default threshold 0.85
is accepted as a `tfidf` match carrying that score. -/
theorem match_facility_similarity_threshold_witness :
    ∃ v, match_facility [("MERCY CLINIC, SPRINGFIELD, IL", ⟨"[first]", "mercy.org"⟩)]
        (85/100) (fun _ _ => (85 : ℚ)/100)
        (some "Mercy Health Clinic") (some "Springfield") (some "IL")
      = some ⟨"MERCY CLINIC, SPRINGFIELD, IL", "tfidf", 85/100, v⟩ := by
  have h := (match_facility_similarity_threshold
      [("MERCY CLINIC, SPRINGFIELD, IL", ⟨"[first]", "mercy.org"⟩)]
      (85/100) (fun _ _ => (85 : ℚ)/100)
      (some "Mercy Health Clinic") (some "Springfield") (some "IL")
      [⟨"MERCY CLINIC, SPRINGFIELD, IL", "MERCY CLINIC"⟩]
      (by
        intro k hk
        rw [show create_facility_key (some "Mercy Health Clinic") (some "Springfield")
            (some "IL") = some "MERCY HEALTH CLINIC, SPRINGFIELD, IL" from by decide] at hk
        cases hk
        decide)
      (by decide) (by decide) (by decide)).2.1 (by norm_num [argmaxFirst, argmaxGo])
  exact h

/-! ## Prioritizer invariants (claim C3) -/

theorem lookupAssoc_upsert_ne {α : Type} :
    ∀ (l : List (String × α)) (k f : String) (v : α), k ≠ f →
      lookupAssoc (upsert l k v) f = lookupAssoc l f := by
  intro l
  induction l with
  | nil =>
    intro k f v hkf
    simp [upsert, lookupAssoc, hkf]
  | cons kv r ih =>
    intro k f v hkf
    rcases kv with ⟨k1, v1⟩
    rw [upsert]
    by_cases he : k1 = k
    · rw [if_pos he, lookupAssoc, lookupAssoc, if_neg hkf,
        if_neg (show k1 ≠ f from fun h => hkf (by rw [← he]; exact h))]
    · rw [if_neg he, lookupAssoc, lookupAssoc]
      by_cases heq : k1 = f
      · rw [if_pos heq, if_pos heq]
      · rw [if_neg heq, if_neg heq]
        exact ih k f v hkf

theorem serper_fold_absent :
    ∀ (entries : List SerperEntry) (f : String) (acc : List (String × PrioritizedCand)),
      (∀ e ∈ entries, e.facility = f → entryBest e = none) →
      lookupAssoc acc f = none →
      lookupAssoc
        (entries.foldl
          (fun acc e =>
            match entryBest e with
            | some bm => upsert acc e.facility bm
            | none => acc) acc) f = none := by
  intro entries
  induction entries with
  | nil => intro f acc _ hacc; exact hacc
  | cons e l ih =>
    intro f acc hall hacc
    rw [List.foldl_cons]
    refine ih f _ (fun e' he' => hall e' (List.mem_cons_of_mem e he')) ?_
    cases hbe : entryBest e with
    | none => exact hacc
    | some bm =>
      have hne : e.facility ≠ f := fun hf => by
        rw [hall e (by simp) hf] at hbe
        cases hbe
      rw [lookupAssoc_upsert_ne acc e.facility f bm hne]
      exact hacc

/-- Claim C3 (main theorem): whenever the answer-box snippet yields a
non-empty extraction, the facility's chosen record has source type
`answerBox` — the organic loop is skipped entirely because the answer-box
priority 100 is not below 90 — and any facility all of whose entries yield
no best match is absent from the output format table. -/
theorem serper_answer_box_priority (e : SerperEntry) (sr : SearchResults) (ab : AnswerBox)
    (f : String) (entries : List SerperEntry)
    (h1 : e.results = some sr) (h2 : sr.answerBox = some ab)
    (h3 : extract_formats_from_text_improved ab.snippet ab.link ≠ [])
    (h4 : ∀ e' ∈ entries, e'.facility = f → entryBest e' = none) :
    (∃ bm, entryBest e = some bm ∧ bm.source_type = "answerBox") ∧
    lookupAssoc (extract_formats_from_serper_results entries) f = none := by
  constructor
  · rw [entryBest]
    simp only [h1, h2]
    cases hce : extract_formats_from_text_improved ab.snippet ab.link with
    | nil => exact absurd hce h3
    | cons c t =>
      refine ⟨⟨c, "answerBox"⟩, ?_, rfl⟩
      simp
  · exact serper_fold_absent entries f [] h4 rfl

/-- Witness for C3: an answer-box snippet with a bracket-template mention
beats a rocketreach organic result; a facility whose only entry has no
search results is absent from the table. -/
theorem serper_answer_box_priority_witness :
    (∃ bm, entryBest
        ⟨"FAC1", some
          ⟨some ⟨"[first].[last] (ex. jane.doe@acme.com)", "https://rocketreach.co/x"⟩,
           [⟨"https://rocketreach.co/y", "1. bob@bar.com (50%)"⟩]⟩⟩
        = some bm ∧ bm.source_type = "answerBox") ∧
    lookupAssoc (extract_formats_from_serper_results [⟨"FAC2", none⟩]) "FAC2" = none :=
  serper_answer_box_priority
    ⟨"FAC1", some
      ⟨some ⟨"[first].[last] (ex. jane.doe@acme.com)", "https://rocketreach.co/x"⟩,
       [⟨"https://rocketreach.co/y", "1. bob@bar.com (50%)"⟩]⟩⟩
    ⟨some ⟨"[first].[last] (ex. jane.doe@acme.com)", "https://rocketreach.co/x"⟩,
     [⟨"https://rocketreach.co/y", "1. bob@bar.com (50%)"⟩]⟩
    ⟨"[first].[last] (ex. jane.doe@acme.com)", "https://rocketreach.co/x"⟩
    "FAC2" [⟨"FAC2", none⟩]
    rfl rfl (by decide) (by decide)

end JoeDashboard
